import Mathlib

/-!
Shallow embedding of the job-tracking backend (backend/src/db/database.ts,
backend/src/controllers/job.controller.ts and schema.sql) in Lean 4, together
with theorems settling the frozen claims about its specification.

Conventions of the embedding:
* The SQLite store is a record of lists mirroring the three tables of
  schema.sql; `AUTOINCREMENT` ids are modelled by explicit counters.
* JavaScript values decoded from JSON are modelled by the inductive `Json`;
  `undefined` (an absent field / argument) is modelled by `Option`.
* Timestamps (`datetime('now')`) are modelled by a `now : Nat` parameter;
  `ORDER BY create_time DESC` on datetime text is order-isomorphic to the
  numeric order used here.
* Fallible operations return the final store paired with
  `Except String _` / `Option String`: a thrown JS exception is an `error`
  value, and the store component is the state at the moment of the throw
  (sqlite runs each statement atomically, there is no enclosing transaction).
-/

namespace JobTrack

/-- JavaScript values produced by `JSON.parse`: null, booleans, numbers
(restricted to integers in this model), strings, arrays and objects. -/
inductive Json where
  | null : Json
  | bool (b : Bool) : Json
  | num (n : Int) : Json
  | str (s : String) : Json
  | arr (elems : List Json) : Json
  | obj (fields : List (String × Json)) : Json
  deriving Repr

/-- JavaScript property access `payload.k` on an object decoded by
`JSON.parse`: with duplicate keys the later occurrence wins. -/
def getField (fields : List (String × Json)) (k : String) : Option Json :=
  (fields.reverse.find? (fun p => p.1 = k)).map (fun p => p.2)

/-- JavaScript falsiness of a decoded value: null, false, 0 and the empty
string are falsy; objects and arrays are always truthy. -/
def jsFalsy : Json → Bool
  | Json.null => true
  | Json.bool b => !b
  | Json.num n => n = 0
  | Json.str s => s = ""
  | Json.arr _ => false
  | Json.obj _ => false

/-- Whether a decoded value is a string (JavaScript `typeof v === "string"`). -/
def Json.isStr : Json → Bool
  | Json.str _ => true
  | _ => false

/-- JavaScript `v ?? d` for a possibly-absent value: the default fires on
`undefined` (absent, `none`) and on `null`, and on nothing else. -/
def jsNullishD (v : Option Json) (d : Json) : Json :=
  match v with
  | none => d
  | some Json.null => d
  | some x => x

/-- Skip JSON insignificant whitespace. -/
def skipWs : List Char → List Char
  | c :: cs =>
    if c = ' ' ∨ c = '\n' ∨ c = '\t' ∨ c = '\r' then skipWs cs else c :: cs
  | [] => []

/-- Parse the body of a JSON string literal after the opening quote, with the
basic escapes; `\u` escapes and number fractions are outside this model
(no claim exercises them). -/
def parseStringBody : Nat → List Char → List Char → Option (String × List Char)
  | 0, _, _ => none
  | _, [], _ => none
  | Nat.succ fuel, c :: cs, acc =>
    if c = '\x22' then some (String.mk acc.reverse, cs)
    else if c = '\\' then
      match cs with
      | [] => none
      | e :: cs2 =>
        if e = '\x22' then parseStringBody fuel cs2 ('\x22' :: acc)
        else if e = '\\' then parseStringBody fuel cs2 ('\\' :: acc)
        else if e = '/' then parseStringBody fuel cs2 ('/' :: acc)
        else if e = 'n' then parseStringBody fuel cs2 ('\n' :: acc)
        else if e = 't' then parseStringBody fuel cs2 ('\t' :: acc)
        else if e = 'r' then parseStringBody fuel cs2 ('\r' :: acc)
        else if e = 'b' then parseStringBody fuel cs2 ('\x08' :: acc)
        else if e = 'f' then parseStringBody fuel cs2 ('\x0c' :: acc)
        else none
    else parseStringBody fuel cs (c :: acc)

/-- Parse a run of decimal digits into a natural number. -/
def parseDigits : List Char → Option (Nat × List Char)
  | cs =>
    let digits := cs.takeWhile Char.isDigit
    if digits = [] then none
    else some (digits.foldl (fun n c => n * 10 + (c.toNat - 48)) 0, cs.drop digits.length)

mutual

/-- Parse one JSON value (model of the grammar accepted by `JSON.parse`,
restricted to integer numbers and basic string escapes). -/
def parseValue : Nat → List Char → Option (Json × List Char)
  | 0, _ => none
  | Nat.succ fuel, cs =>
    match skipWs cs with
    | [] => none
    | c :: rest =>
      if c = 'n' then
        match rest with
        | 'u' :: 'l' :: 'l' :: rest2 => some (Json.null, rest2)
        | _ => none
      else if c = 't' then
        match rest with
        | 'r' :: 'u' :: 'e' :: rest2 => some (Json.bool true, rest2)
        | _ => none
      else if c = 'f' then
        match rest with
        | 'a' :: 'l' :: 's' :: 'e' :: rest2 => some (Json.bool false, rest2)
        | _ => none
      else if c = '\x22' then
        match parseStringBody fuel rest [] with
        | some (s, rest2) => some (Json.str s, rest2)
        | none => none
      else if c = '-' then
        match parseDigits rest with
        | some (n, rest2) => some (Json.num (-(n : Int)), rest2)
        | none => none
      else if c.isDigit then
        match parseDigits (c :: rest) with
        | some (n, rest2) => some (Json.num (n : Int), rest2)
        | none => none
      else if c = '\x5b' then
        match skipWs rest with
        | '\x5d' :: rest2 => some (Json.arr [], rest2)
        | rest2 =>
          match parseElems fuel rest2 [] with
          | some (elems, rest3) => some (Json.arr elems, rest3)
          | none => none
      else if c = '\x7b' then
        match skipWs rest with
        | '\x7d' :: rest2 => some (Json.obj [], rest2)
        | rest2 =>
          match parseMembers fuel rest2 [] with
          | some (fields, rest3) => some (Json.obj fields, rest3)
          | none => none
      else none

/-- Parse the comma-separated elements of a non-empty JSON array, up to and
including the closing bracket. -/
def parseElems : Nat → List Char → List Json → Option (List Json × List Char)
  | 0, _, _ => none
  | Nat.succ fuel, cs, acc =>
    match parseValue fuel cs with
    | none => none
    | some (v, rest) =>
      match skipWs rest with
      | ',' :: rest2 => parseElems fuel rest2 (v :: acc)
      | '\x5d' :: rest2 => some ((v :: acc).reverse, rest2)
      | _ => none

/-- Parse the comma-separated members of a non-empty JSON object, up to and
including the closing brace. -/
def parseMembers : Nat → List Char → List (String × Json) →
    Option (List (String × Json) × List Char)
  | 0, _, _ => none
  | Nat.succ fuel, cs, acc =>
    match skipWs cs with
    | k :: rest =>
      if k = '\x22' then
        match parseStringBody fuel rest [] with
        | none => none
        | some (key, rest2) =>
          match skipWs rest2 with
          | ':' :: rest3 =>
            match parseValue fuel rest3 with
            | none => none
            | some (v, rest4) =>
              match skipWs rest4 with
              | ',' :: rest5 => parseMembers fuel rest5 ((key, v) :: acc)
              | '\x7d' :: rest5 => some (((key, v) :: acc).reverse, rest5)
              | _ => none
          | _ => none
      else none
    | [] => none

end

/-- Model of `JSON.parse`: parse one value and require only whitespace to
remain (trailing garbage is a SyntaxError). -/
def jsonParse (s : String) : Option Json :=
  match parseValue (s.length + 1) s.toList with
  | some (v, rest) => if skipWs rest = [] then some v else none
  | none => none

/-! ## The relational store (schema.sql) -/

/-- Row of the `skills` table. `isSoftSkill` is the 0/1 category flag. -/
structure Skill where
  id : Nat
  name : String
  isSoftSkill : Nat
  deriving DecidableEq, Repr

/-- Row of the `application` table. Timestamps are modelled as naturals;
`mapRowToApplication` is the identity under this naming, so this type also
serves as the `Application` interface returned to callers. -/
structure AppRow where
  id : Nat
  companyName : String
  jobTitle : Option String := none
  location : Option String := none
  sourceUrl : Option String := none
  status : String := "applied"
  applyTime : Option String := none
  createTime : Nat := 0
  updateTime : Nat := 0
  deriving DecidableEq, Repr

/-- Row of the `application_skill_set` link table (its own surrogate id and
timestamps play no role in any claim and are omitted). -/
structure LinkRow where
  applicationId : Nat
  skillId : Nat
  deriving DecidableEq, Repr

/-- The SQLite database: the three tables plus the AUTOINCREMENT counters. -/
structure Store where
  apps : List AppRow := []
  skills : List Skill := []
  links : List LinkRow := []
  nextAppId : Nat := 1
  nextSkillId : Nat := 1
  deriving DecidableEq, Repr

/-- Integrity facts guaranteed by schema.sql for every reachable store:
primary keys are unique and below the AUTOINCREMENT counter, `skills.name`
is UNIQUE, and links satisfy both foreign keys. -/
structure Store.WF (st : Store) : Prop where
  appIdsNodup : (st.apps.map (fun a => a.id)).Nodup
  appIdLt : ∀ a ∈ st.apps, a.id < st.nextAppId
  skillIdsNodup : (st.skills.map (fun s => s.id)).Nodup
  skillNamesNodup : (st.skills.map (fun s => s.name)).Nodup
  skillIdLt : ∀ s ∈ st.skills, s.id < st.nextSkillId
  linkAppFK : ∀ l ∈ st.links, ∃ a ∈ st.apps, a.id = l.applicationId
  linkSkillFK : ∀ l ∈ st.links, ∃ s ∈ st.skills, s.id = l.skillId

/-! ## Pure helpers of database.ts -/

/-- Keep the first occurrence of each element, dropping later duplicates:
the order in which `Array.from(new Set(parts))` enumerates a JS Set. -/
def dedupFirstAux : List String → List String → List String
  | [], _ => []
  | x :: xs, seen =>
    if seen.contains x then dedupFirstAux xs seen
    else x :: dedupFirstAux xs (x :: seen)

/-- Entry point of the de-duplication. -/
def dedupFirst (l : List String) : List String := dedupFirstAux l []

/-- JS `String.prototype.split(",")`: cut at every comma, keeping empty
pieces (so `"".split(",")` is `[""]`). -/
def splitComma : List Char → List Char → List (List Char)
  | [], acc => [acc.reverse]
  | c :: cs, acc =>
    if c = ',' then acc.reverse :: splitComma cs [] else splitComma cs (c :: acc)

/-- The whitespace stripped by JS `String.prototype.trim` (restricted to
the four common ASCII whitespace characters; no claim uses the others). -/
def isWsChar (c : Char) : Bool :=
  c = ' ' || c = '\t' || c = '\n' || c = '\r'

/-- JS `String.prototype.trim`. -/
def trimChars (cs : List Char) : List Char :=
  ((cs.dropWhile isWsChar).reverse.dropWhile isWsChar).reverse

/-- `parseSkillList` (database.ts lines 95-104) on a defined string-or-null
argument: falsy (empty/null) input gives `[]`; otherwise split on commas,
trim each part, drop empties, de-duplicate keeping first occurrences. -/
def parseSkillList : Option String → List String
  | none => []
  | some s =>
    if s = "" then []
    else dedupFirst (((splitComma s.toList []).map
      (fun cs => String.mk (trimChars cs))).filter (fun t => t ≠ ""))

/-- `parseSkillList` on an arbitrary JS argument (`undefined` = `none`).
A truthy non-string has no `.split` method, so the call throws: `none`. -/
def parseSkillListJS : Option Json → Option (List String)
  | none => some []
  | some v =>
    if jsFalsy v then some []
    else
      match v with
      | Json.str s => some (parseSkillList (some s))
      | _ => none

/-- Binding of a JS value as a SQL parameter of a TEXT-affinity column:
`null` binds as SQL NULL, numbers and booleans are stored as their text
form (TEXT affinity; the driver binds booleans as integers 0/1), and
objects/arrays are rejected by the driver (`none` = thrown error). -/
def jsToParam : Json → Option (Option String)
  | Json.null => some none
  | Json.str s => some (some s)
  | Json.num n => some (some (toString n))
  | Json.bool b => some (some (if b then "1" else "0"))
  | Json.arr _ => none
  | Json.obj _ => none

/-- The CHECK constraint of `application.status` in schema.sql. -/
def validStatus (s : String) : Bool :=
  s = "applied" || s = "interview" || s = "rejected" || s = "closed"

/-! ## Skill reconciliation (database.ts lines 161-227) -/

/-- Overwrite-or-append on an association list: `Map.prototype.set`. -/
def mapSet (m : List (String × Nat)) (k : String) (v : Nat) : List (String × Nat) :=
  if m.any (fun p => p.1 = k) then
    m.map (fun p => if p.1 = k then (k, v) else p)
  else m ++ [(k, v)]

/-- Lookup on an association list: `Map.prototype.get` (keys are unique,
so the first match is the binding). -/
def mapGet : List (String × Nat) → String → Option Nat
  | [], _ => none
  | p :: rest, k => if p.1 = k then some p.2 else mapGet rest k

/-- The loop `for (const row of existingRows) existingMap.set(row.name, row.id)`. -/
def buildMap : List Skill → List (String × Nat) → List (String × Nat)
  | [], m => m
  | s :: rest, m => buildMap rest (mapSet m s.name s.id)

/-- The loop over `missing`: each name is INSERTed into `skills` with the
requested category, receives the next rowid, and is recorded in the map. -/
def insertMissing (cat : Nat) : List String → List (String × Nat) → Store →
    List (String × Nat) × Store
  | [], m, st => (m, st)
  | n :: rest, m, st =>
    insertMissing cat rest (mapSet m n st.nextSkillId)
      { st with skills := st.skills ++ [⟨st.nextSkillId, n, cat⟩],
                nextSkillId := st.nextSkillId + 1 }

/-- `getOrCreateSkills` (database.ts lines 161-191). The SELECT filters on
`name IN (...)` only — the `is_soft_skill` column takes no part in the
lookup. Returns the resolved ids in the order of `names`. -/
def getOrCreateSkills (names : List String) (isSoftSkill : Nat) (store : Store) :
    List Nat × Store :=
  if names = [] then ([], store)
  else
    let existingRows := store.skills.filter (fun s => names.contains s.name)
    let existingMap := buildMap existingRows []
    let missing := names.filter (fun n => (mapGet existingMap n).isNone)
    let res := insertMissing isSoftSkill missing existingMap store
    (names.map (fun n => (mapGet res.1 n).getD 0), res.2)

/-- One `INSERT OR IGNORE INTO application_skill_set` statement: with
`PRAGMA foreign_keys = ON` both foreign keys are enforced (OR IGNORE does
not apply to foreign-key violations); a duplicate pair is ignored. -/
def insertLink (store : Store) (appId sid : Nat) : Store × Option String :=
  if ¬ store.apps.any (fun a => a.id = appId) then
    (store, some "FOREIGN KEY constraint failed")
  else if ¬ store.skills.any (fun s => s.id = sid) then
    (store, some "FOREIGN KEY constraint failed")
  else if store.links.any (fun l => l.applicationId = appId ∧ l.skillId = sid) then
    (store, none)
  else
    ({ store with links := store.links ++ [⟨appId, sid⟩] }, none)

/-- The `for (const skillId of skillIds)` insertion loop; the first failing
statement aborts the loop, keeping all effects so far. -/
def insertLinks (store : Store) (appId : Nat) : List Nat → Store × Option String
  | [] => (store, none)
  | sid :: rest =>
    match insertLink store appId sid with
    | (st, some e) => (st, some e)
    | (st, none) => insertLinks st appId rest

/-- `syncApplicationSkills` (database.ts lines 193-227): skip when the name
list is `undefined`; otherwise DELETE every link of the application whose
skill is in the requested category, then resolve the names and re-insert. -/
def syncApplicationSkills (applicationId : Nat) (skillNames : Option (List String))
    (isSoftSkill : Nat) (store : Store) : Store × Option String :=
  match skillNames with
  | none => (store, none)
  | some names =>
    let catIds := (store.skills.filter (fun s => s.isSoftSkill = isSoftSkill)).map
      (fun s => s.id)
    let st1 := { store with links := (store.links.filter
        (fun l => ¬ (l.applicationId = applicationId ∧ catIds.contains l.skillId))) }
    if names = [] then (st1, none)
    else
      let res := getOrCreateSkills names isSoftSkill st1
      insertLinks res.2 applicationId res.1

/-! ## Application CRUD (database.ts lines 229-357) -/

/-- `CreateApplicationInput` as it exists at run time: `companyName` is the
(possibly non-string) decoded value, the optional fields are `undefined`
(`none`) or a decoded value. -/
structure CreateApplicationInput where
  companyName : Json
  jobTitle : Option Json := none
  location : Option Json := none
  sourceUrl : Option Json := none
  status : Option Json := none
  applyTime : Option Json := none
  softSkills : Option Json := none
  skills : Option Json := none

/-- `UpdateApplicationInput`: every field may be absent. -/
structure UpdateApplicationInput where
  companyName : Option Json := none
  jobTitle : Option Json := none
  location : Option Json := none
  sourceUrl : Option Json := none
  status : Option Json := none
  applyTime : Option Json := none
  softSkills : Option Json := none
  skills : Option Json := none

/-- `SELECT * FROM application WHERE id = ?` (database.ts lines 258-267). -/
def getApplicationById (id : Nat) (store : Store) : Option AppRow :=
  store.apps.find? (fun a => a.id = id)

/-- `createApplication` (database.ts lines 229-256): INSERT the application
row (NOT NULL on company_name and status, CHECK on status), then parse the
two skill strings and reconcile each category, then read the row back.
A failure after the INSERT leaves the inserted row in place. -/
def createApplication (now : Nat) (input : CreateApplicationInput) (store : Store) :
    Store × Except String AppRow :=
  let statusJson := jsNullishD input.status (Json.str "applied")
  match jsToParam input.companyName, jsToParam (jsNullishD input.jobTitle Json.null),
      jsToParam (jsNullishD input.location Json.null),
      jsToParam (jsNullishD input.sourceUrl Json.null),
      jsToParam statusJson, jsToParam (jsNullishD input.applyTime Json.null) with
  | some companyP, some titleP, some locP, some srcP, some statP, some applyP =>
    match companyP, statP with
    | some companyText, some statusText =>
      if validStatus statusText then
        let row : AppRow :=
          ⟨store.nextAppId, companyText, titleP, locP, srcP, statusText, applyP, now, now⟩
        let st1 := { store with apps := store.apps ++ [row],
                                nextAppId := store.nextAppId + 1 }
        match parseSkillListJS input.softSkills with
        | none => (st1, Except.error "TypeError: value.split is not a function")
        | some softNames =>
          match parseSkillListJS input.skills with
          | none => (st1, Except.error "TypeError: value.split is not a function")
          | some requiredNames =>
            match syncApplicationSkills row.id (some softNames) 1 st1 with
            | (st2, some e) => (st2, Except.error e)
            | (st2, none) =>
              match syncApplicationSkills row.id (some requiredNames) 0 st2 with
              | (st3, some e) => (st3, Except.error e)
              | (st3, none) =>
                match getApplicationById row.id st3 with
                | some found => (st3, Except.ok found)
                | none => (st3, Except.error "row not found after insert")
      else (store, Except.error "CHECK constraint failed: status")
    | _, _ => (store, Except.error "NOT NULL constraint failed")
  | _, _, _, _, _, _ => (store, Except.error "unsupported parameter type")

/-- One pending `column = ?` assignment of the UPDATE statement. -/
inductive ColumnUpdate where
  | companyName (v : Json)
  | jobTitle (v : Json)
  | location (v : Json)
  | sourceUrl (v : Json)
  | status (v : Json)
  | applyTime (v : Json)

/-- The bound parameter of a pending assignment. -/
def ColumnUpdate.param : ColumnUpdate → Json
  | ColumnUpdate.companyName v => v
  | ColumnUpdate.jobTitle v => v
  | ColumnUpdate.location v => v
  | ColumnUpdate.sourceUrl v => v
  | ColumnUpdate.status v => v
  | ColumnUpdate.applyTime v => v

/-- The `if (input.x !== undefined) fields.push(...)` sequence of
`updateApplication`, in source order. -/
def columnsOf (input : UpdateApplicationInput) : List ColumnUpdate :=
  (match input.companyName with
   | some v => [ColumnUpdate.companyName v] | none => []) ++
  (match input.jobTitle with
   | some v => [ColumnUpdate.jobTitle v] | none => []) ++
  (match input.location with
   | some v => [ColumnUpdate.location v] | none => []) ++
  (match input.sourceUrl with
   | some v => [ColumnUpdate.sourceUrl v] | none => []) ++
  (match input.status with
   | some v => [ColumnUpdate.status v] | none => []) ++
  (match input.applyTime with
   | some v => [ColumnUpdate.applyTime v] | none => [])

/-- Apply one assignment to a row, enforcing the column constraints of
schema.sql (`none` = the statement fails): company_name and status are NOT
NULL, status is CHECKed against the enum; the other columns are nullable. -/
def applyColumn (row : AppRow) : ColumnUpdate → Option AppRow
  | ColumnUpdate.companyName v =>
    match jsToParam v with
    | some (some s) => some { row with companyName := s }
    | _ => none
  | ColumnUpdate.jobTitle v =>
    (jsToParam v).map (fun p => { row with jobTitle := p })
  | ColumnUpdate.location v =>
    (jsToParam v).map (fun p => { row with location := p })
  | ColumnUpdate.sourceUrl v =>
    (jsToParam v).map (fun p => { row with sourceUrl := p })
  | ColumnUpdate.status v =>
    match jsToParam v with
    | some (some s) => if validStatus s then some { row with status := s } else none
    | _ => none
  | ColumnUpdate.applyTime v =>
    (jsToParam v).map (fun p => { row with applyTime := p })

/-- Apply all assignments of the UPDATE statement to one row. -/
def applyColumns (row : AppRow) : List ColumnUpdate → Option AppRow
  | [] => some row
  | c :: rest =>
    match applyColumn row c with
    | some row2 => applyColumns row2 rest
    | none => none

/-- The `UPDATE application SET ... WHERE id = ?` statement. Binding an
object/array parameter throws before anything runs; constraints are only
evaluated on rows the WHERE clause matches; on success the
`trg_application_update_time` trigger refreshes `update_time` of every
updated row. A statement that matches no row succeeds and changes nothing. -/
def runUpdateStmt (now id : Nat) (cols : List ColumnUpdate) (store : Store) :
    Store × Option String :=
  if cols.any (fun c => (jsToParam c.param).isNone) then
    (store, some "unsupported parameter type")
  else if store.apps.any (fun a => a.id = id ∧ (applyColumns a cols).isNone) then
    (store, some "constraint failed")
  else
    ({ store with apps := (store.apps.map (fun a =>
        if a.id = id then
          match applyColumns a cols with
          | some a2 => { a2 with updateTime := now }
          | none => a
        else a)) }, none)

/-- The `input.x !== undefined ? parseSkillList(input.x) : undefined`
expressions of `updateApplication` (computed before the UPDATE statement;
a throw here aborts with the store untouched). -/
def parseSkillArg : Option Json → Option (Option (List String))
  | none => some none
  | some v => (parseSkillListJS (some v)).map some

/-- `updateApplication` (database.ts lines 300-351): collect the defined
column assignments, parse the skill arguments, run the UPDATE only when at
least one column is present, reconcile both categories, then read back
(`none` result = not found). -/
def updateApplication (now id : Nat) (input : UpdateApplicationInput) (store : Store) :
    Store × Except String (Option AppRow) :=
  match parseSkillArg input.softSkills with
  | none => (store, Except.error "TypeError: value.split is not a function")
  | some softNames =>
    match parseSkillArg input.skills with
    | none => (store, Except.error "TypeError: value.split is not a function")
    | some requiredNames =>
      let cols := columnsOf input
      let step1 := if cols.isEmpty then (store, none) else runUpdateStmt now id cols store
      match step1 with
      | (st1, some e) => (st1, Except.error e)
      | (st1, none) =>
        match syncApplicationSkills id softNames 1 st1 with
        | (st2, some e) => (st2, Except.error e)
        | (st2, none) =>
          match syncApplicationSkills id requiredNames 0 st2 with
          | (st3, some e) => (st3, Except.error e)
          | (st3, none) => (st3, Except.ok (getApplicationById id st3))

/-! ## Listing (database.ts lines 269-298) -/

/-- `ListApplicationsQuery`. Limit and offset are integers here; the
controller guarantees finiteness but not integrality (non-integral numbers
are outside this model, no claim exercises them). -/
structure ListQuery where
  status : Option String := none
  limit : Option Int := none
  offset : Option Int := none
  deriving Repr

/-- Stable insertion of a row into a list sorted by `createTime` descending. -/
def insertDesc (a : AppRow) : List AppRow → List AppRow
  | [] => [a]
  | b :: bs => if b.createTime < a.createTime then a :: b :: bs else b :: insertDesc a bs

/-- `ORDER BY create_time DESC` (stable in this model; SQLite leaves the
relative order of equal keys unspecified, and no claim depends on it). -/
def sortByCreateTimeDesc : List AppRow → List AppRow
  | [] => []
  | a :: rest => insertDesc a (sortByCreateTimeDesc rest)

/-- `listApplications` (database.ts lines 269-298). The code concatenates
`SELECT * FROM application [WHERE status = ?] ORDER BY create_time DESC
[LIMIT ?] [OFFSET ?]`, appending the LIMIT and OFFSET clauses
independently. SQLite only admits OFFSET following LIMIT, so the string
built for an offset-without-limit query fails to prepare (syntax error).
`if (query.status)` filters only on a truthy (non-empty) status. Per the
SQLite documentation a negative LIMIT means unlimited and a negative
OFFSET is treated as zero; OFFSET rows are skipped before LIMIT applies. -/
def listApplications (q : ListQuery) (store : Store) : Except String (List AppRow) :=
  if q.offset.isSome ∧ q.limit.isNone then
    Except.error "near OFFSET: syntax error"
  else
    let rows := match q.status with
      | some s => if s ≠ "" then store.apps.filter (fun a => a.status = s) else store.apps
      | none => store.apps
    let sorted := sortByCreateTimeDesc rows
    match q.limit with
    | none => Except.ok sorted
    | some l =>
      let afterOffset := match q.offset with
        | none => sorted
        | some o => sorted.drop o.toNat
      Except.ok (if l < 0 then afterOffset else afterOffset.take l.toNat)

/-- The claim C8 description of `list`, written from the specification text:
filter on the exact status when one is supplied, order by createTime
descending, then apply offset and limit after the ordering. -/
def specListApplications (q : ListQuery) (store : Store) : List AppRow :=
  let rows := match q.status with
    | some s => store.apps.filter (fun a => a.status = s)
    | none => store.apps
  let sorted := sortByCreateTimeDesc rows
  let afterOffset := match q.offset with
    | none => sorted
    | some o => sorted.drop o.toNat
  match q.limit with
  | none => afterOffset
  | some l => afterOffset.take l.toNat

/-! ## Import pipeline (database.ts lines 106-159 and 359-371) -/

/-- `parseGeminiJson` (database.ts lines 119-127): take the substring from
the first brace to the last closing brace inclusive and JSON-decode it;
fail when a delimiter is missing or when `end <= start`. -/
def firstBraceIdx (text : String) : Option Nat :=
  text.toList.findIdx? (fun c => c = '\x7b')

/-- Index of the last closing brace (`String.prototype.lastIndexOf`). -/
def lastBraceIdx (text : String) : Option Nat :=
  match (text.toList.reverse.findIdx? (fun c => c = '\x7d')) with
  | none => none
  | some i => some (text.toList.length - 1 - i)

/-- `text.slice(start, end + 1)`. -/
def braceSlice (text : String) (s e : Nat) : String :=
  String.mk ((text.toList.drop s).take (e + 1 - s))

/-- `parseGeminiJson` itself; `none` models the thrown error. -/
def parseGeminiJson (text : String) : Option Json :=
  match firstBraceIdx text, lastBraceIdx text with
  | some s, some e => if e ≤ s then none else jsonParse (braceSlice text s e)
  | _, _ => none

/-- `analyzeJobContent` field mapping (database.ts lines 149-158): each
`(payload.k as T) ?? d` keeps the decoded value unless the field is absent
or null, in which case the default applies. The `as` casts do not check
anything at run time. -/
def analyzeJobContent (url : String) (payload : List (String × Json)) :
    CreateApplicationInput :=
  { companyName := jsNullishD (getField payload "companyName") (Json.str ""),
    jobTitle := some (jsNullishD (getField payload "jobTitle") Json.null),
    location := some (jsNullishD (getField payload "location") Json.null),
    sourceUrl := some (jsNullishD (getField payload "sourceUrl") (Json.str url)),
    status := some (jsNullishD (getField payload "status") (Json.str "applied")),
    applyTime := some (jsNullishD (getField payload "applyTime") Json.null),
    softSkills := some (jsNullishD (getField payload "softSkills") Json.null),
    skills := some (jsNullishD (getField payload "skills") Json.null) }

/-- `importApplicationFromLink` (database.ts lines 359-371). The fetch and
the model call are external effects, passed in as their results: `fetched`
is the outcome of `fetchPageText` and `generate` maps the page text to the
outcome of `model.generateContent(...).response.text()` (the prompt is
built from the url and page text; its exact shape is irrelevant here).
A successful decode of the brace slice is necessarily an object, since the
slice starts at a brace. -/
def importApplicationFromLink (now : Nat) (url : String) (requestedStatus : Option String)
    (fetched : Except String String) (generate : String → Except String String)
    (store : Store) : Store × Except String AppRow :=
  match fetched with
  | Except.error e => (store, Except.error e)
  | Except.ok pageText =>
    match generate pageText with
    | Except.error e => (store, Except.error e)
    | Except.ok raw =>
      match parseGeminiJson raw with
      | some (Json.obj payload) =>
        let analysis := analyzeJobContent url payload
        if jsFalsy analysis.companyName then
          (store, Except.error "Gemini analysis missing companyName")
        else
          createApplication now
            { analysis with status := some (match requestedStatus with
                | some s => Json.str s
                | none => jsNullishD analysis.status (Json.str "applied")) }
            store
      | _ => (store, Except.error "Gemini response did not contain JSON")

/-! ## Create handler (job.controller.ts lines 36-81) -/

/-- The destructured request body of the create handler; `none` = the
property is absent from the JSON body. -/
structure ReqBody where
  companyName : Option Json := none
  jobTitle : Option Json := none
  location : Option Json := none
  sourceUrl : Option Json := none
  status : Option Json := none
  applyTime : Option Json := none
  softSkills : Option Json := none
  skills : Option Json := none

/-- Outcome of a request handler. -/
inductive HandlerResult where
  | badRequest (msg : String)
  | created (app : AppRow)
  | serverError (msg : String)
  deriving DecidableEq, Repr

/-- `isValidStatus` of the controller: four strict string comparisons. -/
def isValidStatusJson (v : Json) : Bool :=
  match v with
  | Json.str s => validStatus s
  | _ => false

/-- `createApplicationHandler` (job.controller.ts lines 36-81):
reject with 400 when `!companyName || typeof companyName !== "string"`,
when a defined status is not one of the four enum values, or when a
defined skills field is not a string; otherwise create. No trimming of
companyName happens anywhere on this path. An exception thrown by
`createApplication` escapes the handler (modelled as `serverError`). -/
def createApplicationHandler (now : Nat) (body : ReqBody) (store : Store) :
    Store × HandlerResult :=
  if (match body.companyName with
      | none => true
      | some v => jsFalsy v || !v.isStr) then
    (store, HandlerResult.badRequest "companyName is required")
  else if (match body.status with
      | none => false
      | some v => !isValidStatusJson v) then
    (store, HandlerResult.badRequest "Invalid status")
  else if (match body.softSkills with
      | none => false
      | some v => !v.isStr) ||
      (match body.skills with
      | none => false
      | some v => !v.isStr) then
    (store, HandlerResult.badRequest "skills fields must be strings")
  else
    match createApplication now
      { companyName := (body.companyName.getD Json.null),
        jobTitle := body.jobTitle, location := body.location,
        sourceUrl := body.sourceUrl, status := body.status,
        applyTime := body.applyTime, softSkills := body.softSkills,
        skills := body.skills } store with
    | (st, Except.ok app) => (st, HandlerResult.created app)
    | (st, Except.error e) => (st, HandlerResult.serverError e)

/-! ## Derived notions used in claim statements -/

/-- The application is linked, in the given category, to a skill of the
given name: there is a link row from the application to a skill row whose
category flag and name match. -/
def linkedInCat (st : Store) (appId cat : Nat) (n : String) : Prop :=
  ∃ l ∈ st.links, l.applicationId = appId ∧
    ∃ s ∈ st.skills, s.id = l.skillId ∧ s.isSoftSkill = cat ∧ s.name = n

instance (st : Store) (appId cat : Nat) (n : String) :
    Decidable (linkedInCat st appId cat n) := by
  unfold linkedInCat
  infer_instance

instance {ε α : Type} [DecidableEq ε] [DecidableEq α] : DecidableEq (Except ε α) :=
  fun a b =>
    match a, b with
    | Except.error e1, Except.error e2 =>
      match decEq e1 e2 with
      | isTrue h => isTrue (by rw [h])
      | isFalse h => isFalse (fun hc => h (Except.error.inj hc))
    | Except.error _, Except.ok _ => isFalse (fun hc => Except.noConfusion hc)
    | Except.ok _, Except.error _ => isFalse (fun hc => Except.noConfusion hc)
    | Except.ok a1, Except.ok a2 =>
      match decEq a1 a2 with
      | isTrue h => isTrue (by rw [h])
      | isFalse h => isFalse (fun hc => h (Except.ok.inj hc))

/-! ## Lemmas: association-list map -/

theorem mapGet_set_self (m : List (String × Nat)) (k : String) (v : Nat) :
    mapGet (mapSet m k v) k = some v := by
  unfold mapSet
  split
  · rename_i hany
    induction m with
    | nil => simp at hany
    | cons p rest ih =>
      simp only [List.any_cons, Bool.or_eq_true, decide_eq_true_eq] at hany
      by_cases hp : p.1 = k
      · simp [mapGet, hp]
      · rw [List.map_cons, if_neg hp, mapGet, if_neg hp]
        rcases hany with h | h
        · exact absurd h hp
        · exact ih h
  · induction m with
    | nil => simp [mapGet]
    | cons p rest ih =>
      rename_i hany
      simp only [List.any_cons, Bool.or_eq_true, decide_eq_true_eq, not_or] at hany
      rw [List.cons_append, mapGet, if_neg hany.1]
      exact ih (by simpa using hany.2)

theorem mapGet_map_overwrite_ne (m : List (String × Nat)) (k k2 : String) (v : Nat)
    (h : k2 ≠ k) :
    mapGet (m.map (fun p => if p.1 = k then (k, v) else p)) k2 = mapGet m k2 := by
  induction m with
  | nil => simp
  | cons p rest ih =>
    by_cases hp : p.1 = k
    · have hp3 : ¬ (p.1 = k2) := by
        rw [hp]
        exact fun hk => h hk.symm
      rw [List.map_cons, if_pos hp, mapGet, mapGet, if_neg hp3]
      have hk2 : ¬ ((k, v).1 = k2) := fun hk => h hk.symm
      rw [if_neg hk2]
      exact ih
    · rw [List.map_cons, if_neg hp, mapGet, mapGet]
      by_cases hq : p.1 = k2
      · rw [if_pos hq, if_pos hq]
      · rw [if_neg hq, if_neg hq]
        exact ih

theorem mapGet_append_single_ne (m : List (String × Nat)) (k k2 : String) (v : Nat)
    (h : k2 ≠ k) : mapGet (m ++ [(k, v)]) k2 = mapGet m k2 := by
  induction m with
  | nil =>
    have hk2 : ¬ ((k, v).1 = k2) := fun hk => h hk.symm
    simp [mapGet, hk2]
  | cons p rest ih =>
    rw [List.cons_append, mapGet, mapGet]
    by_cases hq : p.1 = k2
    · rw [if_pos hq, if_pos hq]
    · rw [if_neg hq, if_neg hq]
      exact ih

theorem mapGet_set_ne (m : List (String × Nat)) (k k2 : String) (v : Nat)
    (h : k2 ≠ k) : mapGet (mapSet m k v) k2 = mapGet m k2 := by
  unfold mapSet
  split
  · exact mapGet_map_overwrite_ne m k k2 v h
  · exact mapGet_append_single_ne m k k2 v h

theorem mapSet_mem (m : List (String × Nat)) (k : String) (v : Nat)
    (kv : String × Nat) (h : kv ∈ mapSet m k v) : kv = (k, v) ∨ kv ∈ m := by
  unfold mapSet at h
  split at h
  · rw [List.mem_map] at h
    obtain ⟨p, hp, hpe⟩ := h
    by_cases hc : p.1 = k
    · rw [if_pos hc] at hpe
      exact Or.inl hpe.symm
    · rw [if_neg hc] at hpe
      exact Or.inr (hpe ▸ hp)
  · rw [List.mem_append] at h
    rcases h with h | h
    · exact Or.inr h
    · simp only [List.mem_singleton] at h
      exact Or.inl h

theorem mapGet_mem (m : List (String × Nat)) (k : String) (v : Nat)
    (h : mapGet m k = some v) : (k, v) ∈ m := by
  induction m with
  | nil => simp [mapGet] at h
  | cons p rest ih =>
    rw [mapGet] at h
    by_cases hp : p.1 = k
    · rw [if_pos hp] at h
      have hpv : p = (k, v) := by
        obtain ⟨p1, p2⟩ := p
        simp only [Option.some.injEq] at h
        simp only at hp
        rw [hp, h]
      rw [← hpv]
      exact List.mem_cons_self _ _
    · rw [if_neg hp] at h
      exact List.mem_cons_of_mem _ (ih h)

theorem mapGet_isSome_iff (m : List (String × Nat)) (k : String) :
    (mapGet m k).isSome = true ↔ ∃ p ∈ m, p.1 = k := by
  induction m with
  | nil => simp [mapGet]
  | cons p rest ih =>
    rw [mapGet]
    by_cases hp : p.1 = k
    · rw [if_pos hp]
      simp [hp]
    · rw [if_neg hp]
      simpa [hp] using ih

/-! ## Lemmas: buildMap -/

theorem buildMap_mem (rows : List Skill) (m : List (String × Nat))
    (kv : String × Nat) (h : kv ∈ buildMap rows m) :
    (∃ r ∈ rows, r.name = kv.1 ∧ r.id = kv.2) ∨ kv ∈ m := by
  induction rows generalizing m with
  | nil => exact Or.inr h
  | cons r rest ih =>
    rw [buildMap] at h
    rcases ih _ h with ⟨r2, hr2, he⟩ | hm
    · exact Or.inl ⟨r2, List.mem_cons_of_mem _ hr2, he⟩
    · rcases mapSet_mem _ _ _ _ hm with he | hm2
      · refine Or.inl ⟨r, List.mem_cons_self _ _, ?_⟩
        rw [he]
        exact ⟨rfl, rfl⟩
      · exact Or.inr hm2

theorem buildMap_isSome (rows : List Skill) (m : List (String × Nat)) (n : String) :
    (mapGet (buildMap rows m) n).isSome = true ↔
      (∃ r ∈ rows, r.name = n) ∨ (mapGet m n).isSome = true := by
  induction rows generalizing m with
  | nil => simp [buildMap]
  | cons r rest ih =>
    rw [buildMap, ih]
    constructor
    · rintro (⟨r2, hr2, he⟩ | hs)
      · exact Or.inl ⟨r2, List.mem_cons_of_mem _ hr2, he⟩
      · by_cases hn : r.name = n
        · exact Or.inl ⟨r, List.mem_cons_self .., hn⟩
        · right
          rwa [mapGet_set_ne _ _ _ _ (fun he => hn he.symm)] at hs
    · rintro (⟨r2, hr2, he⟩ | hs)
      · rcases List.mem_cons.mp hr2 with he2 | hr3
        · right
          rw [he2] at he
          rw [he, mapGet_set_self]
          rfl
        · exact Or.inl ⟨r2, hr3, he⟩
      · by_cases hn : r.name = n
        · right
          rw [hn, mapGet_set_self]
          rfl
        · right
          rwa [mapGet_set_ne _ _ _ _ (fun he => hn he.symm)]

/-! ## Lemmas: insertMissing -/

theorem insertMissing_apps (cat : Nat) (ms : List String) (m : List (String × Nat))
    (st : Store) : (insertMissing cat ms m st).2.apps = st.apps := by
  induction ms generalizing m st with
  | nil => rfl
  | cons n rest ih => rw [insertMissing, ih]

theorem insertMissing_links (cat : Nat) (ms : List String) (m : List (String × Nat))
    (st : Store) : (insertMissing cat ms m st).2.links = st.links := by
  induction ms generalizing m st with
  | nil => rfl
  | cons n rest ih => rw [insertMissing, ih]

theorem insertMissing_nextAppId (cat : Nat) (ms : List String) (m : List (String × Nat))
    (st : Store) : (insertMissing cat ms m st).2.nextAppId = st.nextAppId := by
  induction ms generalizing m st with
  | nil => rfl
  | cons n rest ih => rw [insertMissing, ih]

theorem insertMissing_skills_sub (cat : Nat) (ms : List String)
    (m : List (String × Nat)) (st : Store) (s : Skill) (h : s ∈ st.skills) :
    s ∈ (insertMissing cat ms m st).2.skills := by
  induction ms generalizing m st with
  | nil => exact h
  | cons n rest ih =>
    rw [insertMissing]
    exact ih _ _ (List.mem_append_left _ h)

theorem insertMissing_nextSkillId_le (cat : Nat) (ms : List String)
    (m : List (String × Nat)) (st : Store) :
    st.nextSkillId ≤ (insertMissing cat ms m st).2.nextSkillId := by
  induction ms generalizing m st with
  | nil => exact Nat.le_refl _
  | cons n rest ih =>
    rw [insertMissing]
    have h2 := ih (mapSet m n st.nextSkillId)
      { st with skills := st.skills ++ [⟨st.nextSkillId, n, cat⟩],
                nextSkillId := st.nextSkillId + 1 }
    exact Nat.le_trans (Nat.le_succ _) h2

theorem insertMissing_skills_cases (cat : Nat) (ms : List String)
    (m : List (String × Nat)) (st : Store) (s2 : Skill)
    (h : s2 ∈ (insertMissing cat ms m st).2.skills) :
    s2 ∈ st.skills ∨ (s2.name ∈ ms ∧ s2.isSoftSkill = cat ∧ st.nextSkillId ≤ s2.id) := by
  induction ms generalizing m st with
  | nil => exact Or.inl h
  | cons n rest ih =>
    rw [insertMissing] at h
    rcases ih _ _ h with h2 | ⟨h2, h3, h4⟩
    · rcases List.mem_append.mp h2 with h3 | h3
      · exact Or.inl h3
      · simp only [List.mem_singleton] at h3
        rw [h3]
        exact Or.inr ⟨List.mem_cons_self _ _, rfl, Nat.le_refl _⟩
    · exact Or.inr ⟨List.mem_cons_of_mem _ h2, h3, Nat.le_trans (Nat.le_succ _) h4⟩

theorem insertMissing_wf (cat : Nat) (ms : List String) (m : List (String × Nat))
    (st : Store)
    (hnodup : (st.skills.map (fun s => s.id)).Nodup)
    (hbound : ∀ s ∈ st.skills, s.id < st.nextSkillId) :
    ((insertMissing cat ms m st).2.skills.map (fun s => s.id)).Nodup ∧
      ∀ s ∈ (insertMissing cat ms m st).2.skills,
        s.id < (insertMissing cat ms m st).2.nextSkillId := by
  induction ms generalizing m st with
  | nil => exact ⟨hnodup, hbound⟩
  | cons n rest ih =>
    rw [insertMissing]
    apply ih
    · rw [List.map_append, List.nodup_append]
      refine ⟨hnodup, List.nodup_singleton _, ?_⟩
      intro x hx hxy
      simp only [List.map_cons, List.map_nil, List.mem_singleton] at hxy
      rw [List.mem_map] at hx
      obtain ⟨s, hs, he⟩ := hx
      rw [hxy] at he
      exact Nat.ne_of_lt (hbound s hs) he
    · intro s hs
      rcases List.mem_append.mp hs with h2 | h2
      · exact Nat.lt_succ_of_lt (hbound s h2)
      · simp only [List.mem_singleton] at h2
        rw [h2]
        exact Nat.lt_succ_self _

theorem insertMissing_map_resolves (cat : Nat) (ms : List String)
    (m : List (String × Nat)) (st : Store)
    (hinv : ∀ kv ∈ m, ∃ s ∈ st.skills, s.name = kv.1 ∧ s.id = kv.2) :
    ∀ kv ∈ (insertMissing cat ms m st).1,
      ∃ s ∈ (insertMissing cat ms m st).2.skills, s.name = kv.1 ∧ s.id = kv.2 := by
  induction ms generalizing m st with
  | nil => exact hinv
  | cons n rest ih =>
    rw [insertMissing]
    apply ih
    intro kv hkv
    rcases mapSet_mem _ _ _ _ hkv with he | hm
    · refine ⟨⟨st.nextSkillId, n, cat⟩, List.mem_append_right _ (List.mem_singleton.mpr rfl), ?_⟩
      rw [he]
      exact ⟨rfl, rfl⟩
    · obtain ⟨s, hs, he⟩ := hinv kv hm
      exact ⟨s, List.mem_append_left _ hs, he⟩

theorem insertMissing_map_isSome (cat : Nat) (ms : List String)
    (m : List (String × Nat)) (st : Store) (n : String)
    (h : n ∈ ms ∨ (mapGet m n).isSome = true) :
    (mapGet (insertMissing cat ms m st).1 n).isSome = true := by
  induction ms generalizing m st with
  | nil =>
    rcases h with h | h
    · exact absurd h (List.not_mem_nil _)
    · exact h
  | cons n2 rest ih =>
    rw [insertMissing]
    apply ih
    by_cases he : n = n2
    · right
      rw [he, mapGet_set_self]
      rfl
    · rcases h with h | h
      · rcases List.mem_cons.mp h with h2 | h2
        · exact absurd h2 he
        · exact Or.inl h2
      · right
        rwa [mapGet_set_ne _ _ _ _ he]

/-! ## Lemmas: getOrCreateSkills -/

theorem gocs_apps (names : List String) (cat : Nat) (st : Store) :
    (getOrCreateSkills names cat st).2.apps = st.apps := by
  unfold getOrCreateSkills
  split
  · rfl
  · exact insertMissing_apps _ _ _ _

theorem gocs_links (names : List String) (cat : Nat) (st : Store) :
    (getOrCreateSkills names cat st).2.links = st.links := by
  unfold getOrCreateSkills
  split
  · rfl
  · exact insertMissing_links _ _ _ _

theorem gocs_nextAppId (names : List String) (cat : Nat) (st : Store) :
    (getOrCreateSkills names cat st).2.nextAppId = st.nextAppId := by
  unfold getOrCreateSkills
  split
  · rfl
  · exact insertMissing_nextAppId _ _ _ _

theorem gocs_skills_sub (names : List String) (cat : Nat) (st : Store)
    (s : Skill) (h : s ∈ st.skills) : s ∈ (getOrCreateSkills names cat st).2.skills := by
  unfold getOrCreateSkills
  split
  · exact h
  · exact insertMissing_skills_sub _ _ _ _ _ h

theorem gocs_skills_cases (names : List String) (cat : Nat) (st : Store)
    (s2 : Skill) (h : s2 ∈ (getOrCreateSkills names cat st).2.skills) :
    s2 ∈ st.skills ∨
      (s2.name ∈ names ∧ s2.isSoftSkill = cat ∧ st.nextSkillId ≤ s2.id ∧
        ∀ s ∈ st.skills, s.name ≠ s2.name) := by
  unfold getOrCreateSkills at h
  split at h
  · exact Or.inl h
  · rcases insertMissing_skills_cases _ _ _ _ _ h with h2 | ⟨h2, h3, h4⟩
    · exact Or.inl h2
    · rw [List.mem_filter] at h2
      obtain ⟨hmem, hnone⟩ := h2
      refine Or.inr ⟨hmem, h3, h4, ?_⟩
      intro s hs he
      rw [Option.isNone_iff_eq_none] at hnone
      have hsome : (mapGet (buildMap (st.skills.filter
          (fun s3 => names.contains s3.name)) []) s2.name).isSome = true := by
        rw [buildMap_isSome]
        left
        refine ⟨s, List.mem_filter.mpr ⟨hs, ?_⟩, he⟩
        rw [he]
        simpa using hmem
      rw [hnone] at hsome
      simp at hsome

theorem gocs_skills_wf (names : List String) (cat : Nat) (st : Store)
    (hnodup : (st.skills.map (fun s => s.id)).Nodup)
    (hbound : ∀ s ∈ st.skills, s.id < st.nextSkillId) :
    ((getOrCreateSkills names cat st).2.skills.map (fun s => s.id)).Nodup ∧
      ∀ s ∈ (getOrCreateSkills names cat st).2.skills,
        s.id < (getOrCreateSkills names cat st).2.nextSkillId := by
  unfold getOrCreateSkills
  split
  · exact ⟨hnodup, hbound⟩
  · exact insertMissing_wf _ _ _ _ hnodup hbound

theorem gocs_ids_resolve (names : List String) (cat : Nat) (st : Store)
    (n : String) (h : n ∈ names) :
    ∃ sid, sid ∈ (getOrCreateSkills names cat st).1 ∧
      ∃ s ∈ (getOrCreateSkills names cat st).2.skills, s.id = sid ∧ s.name = n := by
  unfold getOrCreateSkills
  have hne : ¬ names = [] := by
    intro he
    rw [he] at h
    exact List.not_mem_nil _ h
  rw [if_neg hne]
  simp only
  have hsome : (mapGet (insertMissing cat
      (names.filter (fun n2 => (mapGet (buildMap (st.skills.filter
        (fun s => names.contains s.name)) []) n2).isNone))
      (buildMap (st.skills.filter (fun s => names.contains s.name)) []) st).1 n).isSome
      = true := by
    apply insertMissing_map_isSome
    by_cases hm : (mapGet (buildMap (st.skills.filter
        (fun s => names.contains s.name)) []) n).isNone
    · left
      exact List.mem_filter.mpr ⟨h, by simpa using hm⟩
    · right
      rw [Option.isNone_iff_eq_none] at hm
      rcases ho : mapGet (buildMap (st.skills.filter
        (fun s => names.contains s.name)) []) n with _ | v
      · exact absurd ho hm
      · rfl
  rcases ho : mapGet (insertMissing cat
      (names.filter (fun n2 => (mapGet (buildMap (st.skills.filter
        (fun s => names.contains s.name)) []) n2).isNone))
      (buildMap (st.skills.filter (fun s => names.contains s.name)) []) st).1 n with _ | v
  · rw [ho] at hsome
    simp at hsome
  · refine ⟨v, ?_, ?_⟩
    · rw [List.mem_map]
      refine ⟨n, h, ?_⟩
      rw [ho]
      rfl
    · have hkv := mapGet_mem _ _ _ ho
      have hres := insertMissing_map_resolves cat _ _ st ?_ _ hkv
      · obtain ⟨s, hs, he1, he2⟩ := hres
        exact ⟨s, hs, he2, he1⟩
      · intro kv hkv2
        rcases buildMap_mem _ _ _ hkv2 with ⟨r, hr, he1, he2⟩ | hm
        · exact ⟨r, (List.mem_filter.mp hr).1, he1, he2⟩
        · exact absurd hm (List.not_mem_nil _)

theorem gocs_ids_mem_inv (names : List String) (cat : Nat) (st : Store)
    (sid : Nat) (h : sid ∈ (getOrCreateSkills names cat st).1) :
    ∃ n ∈ names, ∃ s ∈ (getOrCreateSkills names cat st).2.skills,
      s.id = sid ∧ s.name = n := by
  unfold getOrCreateSkills at h ⊢
  split at h
  · exact absurd h (List.not_mem_nil _)
  · rename_i hne
    rw [if_neg hne]
    simp only at h ⊢
    rw [List.mem_map] at h
    obtain ⟨n, hn, he⟩ := h
    refine ⟨n, hn, ?_⟩
    have hsome : (mapGet (insertMissing cat
        (names.filter (fun n2 => (mapGet (buildMap (st.skills.filter
          (fun s => names.contains s.name)) []) n2).isNone))
        (buildMap (st.skills.filter (fun s => names.contains s.name)) []) st).1 n).isSome
        = true := by
      apply insertMissing_map_isSome
      by_cases hm : (mapGet (buildMap (st.skills.filter
          (fun s => names.contains s.name)) []) n).isNone
      · left
        exact List.mem_filter.mpr ⟨hn, by simpa using hm⟩
      · right
        rcases ho : mapGet (buildMap (st.skills.filter
          (fun s => names.contains s.name)) []) n with _ | v
        · rw [Option.isNone_iff_eq_none] at hm
          exact absurd ho hm
        · rfl
    rcases ho : mapGet (insertMissing cat
        (names.filter (fun n2 => (mapGet (buildMap (st.skills.filter
          (fun s => names.contains s.name)) []) n2).isNone))
        (buildMap (st.skills.filter (fun s => names.contains s.name)) []) st).1 n with _ | v
    · rw [ho] at hsome
      simp at hsome
    · rw [ho] at he
      simp only [Option.getD_some] at he
      have hkv := mapGet_mem _ _ _ ho
      have hres := insertMissing_map_resolves cat _ _ st ?_ _ hkv
      · obtain ⟨s, hs, he1, he2⟩ := hres
        exact ⟨s, hs, by rw [he2, he], he1⟩
      · intro kv hkv2
        rcases buildMap_mem _ _ _ hkv2 with ⟨r, hr, he1, he2⟩ | hm
        · exact ⟨r, (List.mem_filter.mp hr).1, he1, he2⟩
        · exact absurd hm (List.not_mem_nil _)

/-! ## Lemmas: insertLink and insertLinks -/

theorem insertLink_apps (st : Store) (appId sid : Nat) :
    (insertLink st appId sid).1.apps = st.apps := by
  unfold insertLink
  split
  · rfl
  · split
    · rfl
    · split
      · rfl
      · rfl

theorem insertLink_skills (st : Store) (appId sid : Nat) :
    (insertLink st appId sid).1.skills = st.skills := by
  unfold insertLink
  split
  · rfl
  · split
    · rfl
    · split
      · rfl
      · rfl

theorem insertLinks_apps (st : Store) (appId : Nat) (sids : List Nat) :
    (insertLinks st appId sids).1.apps = st.apps := by
  induction sids generalizing st with
  | nil => rfl
  | cons sid rest ih =>
    rw [insertLinks]
    rcases h : insertLink st appId sid with ⟨st2, e⟩
    have he : st2.apps = st.apps := by
      have := insertLink_apps st appId sid
      rw [h] at this
      exact this
    cases e with
    | none =>
      simp only
      rw [ih st2, he]
    | some e2 =>
      simp only
      exact he

theorem insertLinks_skills (st : Store) (appId : Nat) (sids : List Nat) :
    (insertLinks st appId sids).1.skills = st.skills := by
  induction sids generalizing st with
  | nil => rfl
  | cons sid rest ih =>
    rw [insertLinks]
    rcases h : insertLink st appId sid with ⟨st2, e⟩
    have he : st2.skills = st.skills := by
      have := insertLink_skills st appId sid
      rw [h] at this
      exact this
    cases e with
    | none =>
      simp only
      rw [ih st2, he]
    | some e2 =>
      simp only
      exact he

theorem insertLinks_ok (st : Store) (appId : Nat) (sids : List Nat)
    (happ : st.apps.any (fun a => a.id = appId) = true)
    (hsk : ∀ sid ∈ sids, ∃ s ∈ st.skills, s.id = sid) :
    ∃ st2, insertLinks st appId sids = (st2, none) ∧
      st2.apps = st.apps ∧ st2.skills = st.skills ∧
      ∀ l, l ∈ st2.links ↔ l ∈ st.links ∨ ∃ sid ∈ sids, l = LinkRow.mk appId sid := by
  induction sids generalizing st with
  | nil =>
    refine ⟨st, rfl, rfl, rfl, ?_⟩
    intro l
    simp
  | cons sid rest ih =>
    rw [insertLinks]
    have hskill : st.skills.any (fun s => s.id = sid) = true := by
      obtain ⟨s, hs, he⟩ := hsk sid (List.mem_cons_self _ _)
      rw [List.any_eq_true]
      exact ⟨s, hs, by simpa using he⟩
    unfold insertLink
    rw [if_neg (by rw [happ]; exact fun h => h rfl),
        if_neg (by rw [hskill]; exact fun h => h rfl)]
    by_cases hdup : st.links.any (fun l => l.applicationId = appId ∧ l.skillId = sid) = true
    · rw [if_pos hdup]
      simp only
      obtain ⟨st2, he, ha, hs2, hl⟩ := ih st happ
        (fun sid2 h2 => hsk sid2 (List.mem_cons_of_mem _ h2))
      refine ⟨st2, he, ha, hs2, ?_⟩
      intro l
      rw [hl]
      constructor
      · rintro (h2 | ⟨sid2, h2, h3⟩)
        · exact Or.inl h2
        · exact Or.inr ⟨sid2, List.mem_cons_of_mem _ h2, h3⟩
      · rintro (h2 | ⟨sid2, h2, h3⟩)
        · exact Or.inl h2
        · rcases List.mem_cons.mp h2 with h4 | h4
          · left
            rw [List.any_eq_true] at hdup
            obtain ⟨l2, hl2, hc⟩ := hdup
            simp only [decide_eq_true_eq] at hc
            have : l = l2 := by
              rw [h3, h4]
              rcases l2 with ⟨la, ls⟩
              simp only at hc
              rw [hc.1, hc.2]
            rw [this]
            exact hl2
          · exact Or.inr ⟨sid2, h4, h3⟩
    · rw [if_neg hdup]
      simp only
      set st1 := { st with links := st.links ++ [LinkRow.mk appId sid] } with hst1
      have happ1 : st1.apps.any (fun a => a.id = appId) = true := happ
      obtain ⟨st2, he, ha, hs2, hl⟩ := ih st1 happ1
        (fun sid2 h2 => hsk sid2 (List.mem_cons_of_mem _ h2))
      refine ⟨st2, he, ha, hs2, ?_⟩
      intro l
      rw [hl]
      constructor
      · rintro (h2 | ⟨sid2, h2, h3⟩)
        · rcases List.mem_append.mp h2 with h4 | h4
          · exact Or.inl h4
          · simp only [List.mem_singleton] at h4
            exact Or.inr ⟨sid, List.mem_cons_self _ _, h4⟩
        · exact Or.inr ⟨sid2, List.mem_cons_of_mem _ h2, h3⟩
      · rintro (h2 | ⟨sid2, h2, h3⟩)
        · exact Or.inl (List.mem_append_left _ h2)
        · rcases List.mem_cons.mp h2 with h4 | h4
          · left
            apply List.mem_append_right
            rw [h3, h4]
            exact List.mem_singleton.mpr rfl
          · exact Or.inr ⟨sid2, h4, h3⟩

/-! ## Lemmas: syncApplicationSkills -/

theorem sync_apps (appId cat : Nat) (ns : Option (List String)) (st : Store) :
    (syncApplicationSkills appId ns cat st).1.apps = st.apps := by
  unfold syncApplicationSkills
  cases ns with
  | none => rfl
  | some names =>
    simp only
    split
    · rfl
    · rw [insertLinks_apps, gocs_apps]

/-- A successful sync needs nothing beyond the existence of the application
row: the resolved skill ids all exist, so every link INSERT succeeds. -/
theorem sync_ok_of_app (appId cat : Nat) (ns : Option (List String)) (st : Store)
    (happ : st.apps.any (fun a => a.id = appId) = true) :
    ∃ st2, syncApplicationSkills appId ns cat st = (st2, none) ∧ st2.apps = st.apps := by
  unfold syncApplicationSkills
  cases ns with
  | none => exact ⟨st, rfl, rfl⟩
  | some names =>
    simp only
    split
    · exact ⟨_, rfl, rfl⟩
    · set st1 : Store := { st with links := (st.links.filter
        (fun l => ¬ (l.applicationId = appId ∧
          (((st.skills.filter (fun s => s.isSoftSkill = cat)).map
            (fun s => s.id)).contains l.skillId)))) } with hst1
      have happ1 : st1.apps.any (fun a => a.id = appId) = true := happ
      have happG : (getOrCreateSkills names cat st1).2.apps.any
          (fun a => a.id = appId) = true := by
        rw [gocs_apps]
        exact happ1
      obtain ⟨st2, he, ha, hs2, _⟩ := insertLinks_ok (getOrCreateSkills names cat st1).2
        appId (getOrCreateSkills names cat st1).1 happG
        (fun sid h2 => by
          obtain ⟨n, _, s, hs, he1, _⟩ := gocs_ids_mem_inv names cat st1 sid h2
          exact ⟨s, hs, he1⟩)
      refine ⟨st2, he, ?_⟩
      rw [ha, gocs_apps]

/-- Full characterisation of a sync with a supplied name list, under the
store integrity facts and assuming no requested name is recorded in the
dictionary under the other category: it succeeds and afterwards the names
linked to the application in the category are exactly the supplied ones. -/
theorem sync_some_spec (appId cat : Nat) (names : List String) (st : Store)
    (hnodup : (st.skills.map (fun s => s.id)).Nodup)
    (hbound : ∀ s ∈ st.skills, s.id < st.nextSkillId)
    (hlinkFK : ∀ l ∈ st.links, ∃ s ∈ st.skills, s.id = l.skillId)
    (happ : st.apps.any (fun a => a.id = appId) = true)
    (hcat : ∀ n ∈ names, ∀ s ∈ st.skills, s.name = n → s.isSoftSkill = cat) :
    ∃ st2, syncApplicationSkills appId (some names) cat st = (st2, none) ∧
      st2.apps = st.apps ∧
      ∀ n, linkedInCat st2 appId cat n ↔ n ∈ names := by
  unfold syncApplicationSkills
  simp only
  set catIds := ((st.skills.filter (fun s => s.isSoftSkill = cat)).map
    (fun s => s.id)) with hcatIds
  set st1 : Store := { st with links := (st.links.filter
      (fun l => ¬ (l.applicationId = appId ∧ catIds.contains l.skillId))) } with hst1
  have hskills1 : st1.skills = st.skills := rfl
  have hlinks1 : ∀ l ∈ st1.links, l ∈ st.links := by
    intro l hl
    exact (List.mem_filter.mp hl).1
  have hsurvive : ∀ l ∈ st1.links,
      ¬ (l.applicationId = appId ∧ catIds.contains l.skillId = true) := by
    intro l hl
    exact of_decide_eq_true (List.mem_filter.mp hl).2
  split
  · rename_i hnil
    refine ⟨st1, rfl, rfl, ?_⟩
    intro n
    rw [hnil]
    simp only [List.not_mem_nil, iff_false]
    rintro ⟨l, hl, he1, s, hs, he2, he3, he4⟩
    refine hsurvive l hl ⟨he1, ?_⟩
    rw [hcatIds]
    rw [List.contains_eq_any_beq, List.any_eq_true]
    refine ⟨s.id, ?_, by simp [he2]⟩
    rw [List.mem_map]
    exact ⟨s, List.mem_filter.mpr ⟨hs, by simp [he3]⟩, rfl⟩
  · rename_i hnil
    set stG := (getOrCreateSkills names cat st1).2 with hstG
    set ids := (getOrCreateSkills names cat st1).1 with hids
    have happG : stG.apps.any (fun a => a.id = appId) = true := by
      rw [hstG, gocs_apps]
      exact happ
    have hskG : ∀ sid ∈ ids, ∃ s ∈ stG.skills, s.id = sid := by
      intro sid h2
      obtain ⟨n, _, s, hs, he1, _⟩ := gocs_ids_mem_inv names cat st1 sid h2
      exact ⟨s, hs, he1⟩
    obtain ⟨st2, he, ha, hs2, hl⟩ := insertLinks_ok stG appId ids happG hskG
    have hwfG := gocs_skills_wf names cat st1 (by rw [hskills1]; exact hnodup)
      (by rw [hskills1]; exact hbound)
    refine ⟨st2, he, by rw [ha, hstG, gocs_apps], ?_⟩
    intro n
    constructor
    · rintro ⟨l, hlmem, he1, s, hs, he2, he3, he4⟩
      rw [hl l] at hlmem
      rw [hs2] at hs
      rcases hlmem with hold | ⟨sid, hsid, he5⟩
      · exfalso
        have hold2 : l ∈ st1.links := by
          rw [hstG, gocs_links] at hold
          exact hold
        rcases gocs_skills_cases names cat st1 s hs with holds | ⟨_, _, hfresh, _⟩
        · refine hsurvive l hold2 ⟨he1, ?_⟩
          rw [hcatIds, List.contains_eq_any_beq, List.any_eq_true]
          refine ⟨s.id, ?_, by simp [he2]⟩
          rw [List.mem_map]
          refine ⟨s, List.mem_filter.mpr ⟨?_, by simp [he3]⟩, rfl⟩
          rw [← hskills1]
          exact holds
        · obtain ⟨s0, hs0, he0⟩ := hlinkFK l (hlinks1 l hold2)
          have hb := hbound s0 hs0
          rw [he0] at hb
          rw [← he2] at hb
          have hfresh2 : st.nextSkillId ≤ s.id := hfresh
          exact Nat.not_le.mpr hb hfresh2
      · obtain ⟨n2, hn2, s2, hs2mem, he6, he7⟩ := gocs_ids_mem_inv names cat st1 sid hsid
        have hideq : s.id = s2.id := by
          rw [he2, he5]
          simp only
          rw [he6]
        have hseq : s = s2 := by
          apply List.inj_on_of_nodup_map hwfG.1 hs hs2mem hideq
        rw [← he4, hseq, he7]
        exact hn2
    · intro hn
      obtain ⟨sid, hsid, s, hs, he1, he2⟩ := gocs_ids_resolve names cat st1 n hn
      have hcat2 : s.isSoftSkill = cat := by
        rcases gocs_skills_cases names cat st1 s hs with holds | ⟨_, hc, _, _⟩
        · refine hcat n hn s ?_ he2
          rw [← hskills1]
          exact holds
        · exact hc
      refine ⟨LinkRow.mk appId sid, ?_, rfl, s, ?_, by simp [he1], hcat2, he2⟩
      · rw [hl]
        exact Or.inr ⟨sid, hsid, rfl⟩
      · rw [hs2]
        exact hs

/-! ## Small helper lemmas -/

theorem jsNullishD_default (v : Option Json) (d : Json)
    (h : v = none ∨ v = some Json.null) : jsNullishD v d = d := by
  rcases h with h | h <;> rw [h] <;> rfl

theorem jsNullishD_keep (v d : Json) (h : v ≠ Json.null) :
    jsNullishD (some v) d = v := by
  cases v with
  | null => exact absurd rfl h
  | bool b => rfl
  | num n => rfl
  | str s => rfl
  | arr es => rfl
  | obj fs => rfl

theorem parseSkillListJS_str (s : String) :
    parseSkillListJS (some (Json.str s)) = some (parseSkillList (some s)) := by
  by_cases h : s = ""
  · rw [h]
    rfl
  · simp [parseSkillListJS, jsFalsy, parseSkillList, h]

theorem find?_append_fresh (apps : List AppRow) (row : AppRow)
    (hb : ∀ a ∈ apps, a.id ≠ row.id) :
    (apps ++ [row]).find? (fun a => a.id = row.id) = some row := by
  rw [List.find?_append]
  have h1 : apps.find? (fun a => a.id = row.id) = none := by
    rw [List.find?_eq_none]
    intro a ha
    simpa using hb a ha
  rw [h1]
  simp [List.find?]

/-! ## Fixtures for counterexamples and witnesses -/

/-- A store whose dictionary holds the name X only as a soft skill. -/
def storeC1 : Store := { skills := [⟨1, "X", 1⟩], nextSkillId := 2 }

/-- An application row used by several concrete stores. -/
def appAcme : AppRow := { id := 1, companyName := "Acme", createTime := 1, updateTime := 5 }

/-- Store with one application and the name X recorded as a soft skill. -/
def storeC2 : Store :=
  { apps := [appAcme], skills := [⟨1, "X", 1⟩], nextAppId := 2, nextSkillId := 2 }

/-- Store with one application and an empty skill dictionary. -/
def storeOneApp : Store := { apps := [appAcme], nextAppId := 2 }

/-! ## Claim C1 -/

/-- Claim C1, counterexample: calling the reconciler lookup with name set
X and category 0 (required) on a store where X exists only with category 1
(soft) does not treat X as not found: no skill row with name X and the
requested category 0 is inserted — the soft-skill row id 1 is reused and
the store is left unchanged. -/
theorem getOrCreateSkills_category_counterexample :
    (getOrCreateSkills ["X"] 0 storeC1).1 = [1] ∧
    (getOrCreateSkills ["X"] 0 storeC1).2 = storeC1 ∧
    ¬ ∃ s ∈ (getOrCreateSkills ["X"] 0 storeC1).2.skills,
        s.name = "X" ∧ s.isSoftSkill = 0 := by
  refine ⟨by decide, by decide, by decide⟩

/-- Claim C1 (amended): the lookup of existing skill rows matches on name
alone — a name that already exists in the dictionary is resolved to its
existing row whatever that row's category, and a new row (with the
requested category) is inserted only for names absent from the dictionary
entirely; afterwards every requested name has a row. -/
theorem getOrCreateSkills_matches_name_only (names : List String) (cat : Nat)
    (store : Store) :
    (∀ s ∈ store.skills, s ∈ (getOrCreateSkills names cat store).2.skills) ∧
    (∀ s2 ∈ (getOrCreateSkills names cat store).2.skills,
      s2 ∈ store.skills ∨
        (s2.name ∈ names ∧ s2.isSoftSkill = cat ∧
          ∀ s ∈ store.skills, s.name ≠ s2.name)) ∧
    (∀ n ∈ names, ∃ s2 ∈ (getOrCreateSkills names cat store).2.skills, s2.name = n) := by
  refine ⟨fun s h => gocs_skills_sub names cat store s h, fun s2 h => ?_, fun n hn => ?_⟩
  · rcases gocs_skills_cases names cat store s2 h with h2 | ⟨h2, h3, _, h4⟩
    · exact Or.inl h2
    · exact Or.inr ⟨h2, h3, h4⟩
  · obtain ⟨sid, _, s, hs, _, he⟩ := gocs_ids_resolve names cat store n hn
    exact ⟨s, hs, he⟩

/-- Witness for claim C1: concrete application of the amended theorem. -/
theorem getOrCreateSkills_matches_name_only_witness :
    ∃ s2 ∈ (getOrCreateSkills ["Go"] 0 storeC1).2.skills, s2.name = "Go" :=
  (getOrCreateSkills_matches_name_only ["Go"] 0 storeC1).2.2 "Go" (by decide)

/-! ## Claim C2 -/

/-- Claim C2, counterexample: after an update supplying skills "X"
(category 0) for application 1 on a store where X is recorded as a soft
skill, the update succeeds but the set of skills linked to the application
in category 0 does not contain X (the cross-category row was reused), so
the linked set does not equal the supplied name set. -/
theorem syncApplicationSkills_counterexample :
    "X" ∈ parseSkillList (some "X") ∧
    (updateApplication 10 1 { skills := some (Json.str "X") } storeC2).2 =
      Except.ok (some appAcme) ∧
    ¬ linkedInCat (updateApplication 10 1 { skills := some (Json.str "X") } storeC2).1
        1 0 "X" := by
  refine ⟨by decide, by decide, by decide⟩

/-- Claim C2 (amended): for a well-formed store and an existing
application, provided no supplied name is recorded in the dictionary under
the other category, reconciliation is exact: an omitted field leaves the
store untouched, and a supplied string (split, trimmed, de-duplicated by
`parseSkillList`; the empty string giving the empty set) makes the set of
names linked to the application in that category equal exactly the
supplied set. -/
theorem syncApplicationSkills_exact_replacement (appId cat : Nat) (store : Store)
    (input : Option String) (hWF : Store.WF store)
    (happ : store.apps.any (fun a => a.id = appId) = true)
    (hcat : ∀ n ∈ parseSkillList input, ∀ s ∈ store.skills,
      s.name = n → s.isSoftSkill = cat) :
    syncApplicationSkills appId none cat store = (store, none) ∧
    ∃ st2, syncApplicationSkills appId (some (parseSkillList input)) cat store =
        (st2, none) ∧ st2.apps = store.apps ∧
      ∀ n, linkedInCat st2 appId cat n ↔ n ∈ parseSkillList input :=
  ⟨rfl, sync_some_spec appId cat (parseSkillList input) store hWF.skillIdsNodup
    hWF.skillIdLt hWF.linkSkillFK happ hcat⟩

/-- Witness for claim C2: concrete application of the amended theorem. -/
theorem syncApplicationSkills_exact_replacement_witness :
    syncApplicationSkills 1 none 0 storeOneApp = (storeOneApp, none) ∧
    ∃ st2, syncApplicationSkills 1 (some (parseSkillList (some "Go,Rust"))) 0 storeOneApp =
        (st2, none) ∧ st2.apps = storeOneApp.apps ∧
      ∀ n, linkedInCat st2 1 0 n ↔ n ∈ parseSkillList (some "Go,Rust") :=
  syncApplicationSkills_exact_replacement 1 0 storeOneApp (some "Go,Rust")
    (by constructor <;> decide) (by decide) (by decide)

/-! ## Claim C5 -/

/-- Claim C5, counterexample: a decoded payload whose companyName is the
number 42 is passed through unchanged by the parser mapping — it does not
become the empty string, although 42 is not a string. The `as string`
casts check nothing at run time and `??` only replaces null/undefined. -/
theorem analyzeJobContent_counterexample :
    (analyzeJobContent "u" [("companyName", Json.num 42)]).companyName = Json.num 42 ∧
    (analyzeJobContent "u" [("companyName", Json.num 42)]).companyName ≠ Json.str "" :=
  ⟨rfl, fun h => Json.noConfusion h⟩

/-- Claim C5 (amended): the parser mapping applies the documented defaults
exactly when a field is absent or null — companyName to the empty string,
jobTitle/location/applyTime/softSkills/skills to null, status to
"applied", sourceUrl to the caller-supplied URL — and passes every other
decoded value through unchanged, including non-string values. -/
theorem analyzeJobContent_field_mapping (url : String)
    (payload : List (String × Json)) :
    ((getField payload "companyName" = none ∨
        getField payload "companyName" = some Json.null) →
      (analyzeJobContent url payload).companyName = Json.str "") ∧
    (∀ v, getField payload "companyName" = some v → v ≠ Json.null →
      (analyzeJobContent url payload).companyName = v) ∧
    ((getField payload "jobTitle" = none ∨
        getField payload "jobTitle" = some Json.null) →
      (analyzeJobContent url payload).jobTitle = some Json.null) ∧
    (∀ v, getField payload "jobTitle" = some v → v ≠ Json.null →
      (analyzeJobContent url payload).jobTitle = some v) ∧
    ((getField payload "location" = none ∨
        getField payload "location" = some Json.null) →
      (analyzeJobContent url payload).location = some Json.null) ∧
    (∀ v, getField payload "location" = some v → v ≠ Json.null →
      (analyzeJobContent url payload).location = some v) ∧
    ((getField payload "applyTime" = none ∨
        getField payload "applyTime" = some Json.null) →
      (analyzeJobContent url payload).applyTime = some Json.null) ∧
    (∀ v, getField payload "applyTime" = some v → v ≠ Json.null →
      (analyzeJobContent url payload).applyTime = some v) ∧
    ((getField payload "softSkills" = none ∨
        getField payload "softSkills" = some Json.null) →
      (analyzeJobContent url payload).softSkills = some Json.null) ∧
    (∀ v, getField payload "softSkills" = some v → v ≠ Json.null →
      (analyzeJobContent url payload).softSkills = some v) ∧
    ((getField payload "skills" = none ∨
        getField payload "skills" = some Json.null) →
      (analyzeJobContent url payload).skills = some Json.null) ∧
    (∀ v, getField payload "skills" = some v → v ≠ Json.null →
      (analyzeJobContent url payload).skills = some v) ∧
    ((getField payload "status" = none ∨
        getField payload "status" = some Json.null) →
      (analyzeJobContent url payload).status = some (Json.str "applied")) ∧
    (∀ v, getField payload "status" = some v → v ≠ Json.null →
      (analyzeJobContent url payload).status = some v) ∧
    ((getField payload "sourceUrl" = none ∨
        getField payload "sourceUrl" = some Json.null) →
      (analyzeJobContent url payload).sourceUrl = some (Json.str url)) ∧
    (∀ v, getField payload "sourceUrl" = some v → v ≠ Json.null →
      (analyzeJobContent url payload).sourceUrl = some v) := by
  unfold analyzeJobContent
  refine ⟨fun h => ?_, fun v h hv => ?_, fun h => ?_, fun v h hv => ?_, fun h => ?_,
    fun v h hv => ?_, fun h => ?_, fun v h hv => ?_, fun h => ?_, fun v h hv => ?_,
    fun h => ?_, fun v h hv => ?_, fun h => ?_, fun v h hv => ?_, fun h => ?_,
    fun v h hv => ?_⟩ <;>
    simp only <;>
    first
      | rw [jsNullishD_default _ _ h]
      | (rw [h, jsNullishD_keep v _ hv])

/-- Witness for claim C5: the defaults at the empty payload. -/
theorem analyzeJobContent_field_mapping_witness :
    (analyzeJobContent "http://u" []).companyName = Json.str "" ∧
    (analyzeJobContent "http://u" []).sourceUrl = some (Json.str "http://u") := by
  refine ⟨(analyzeJobContent_field_mapping "http://u" []).1 (Or.inl rfl), ?_⟩
  have h := analyzeJobContent_field_mapping "http://u" []
  exact h.2.2.2.2.2.2.2.2.2.2.2.2.2.2.1 (Or.inl rfl)

/-! ## Claim C7 -/

/-- Claim C7, counterexample: a create request whose companyName is the
whitespace-only string is not rejected — no trimming happens, the row is
created and persisted with the whitespace companyName. -/
theorem createApplicationHandler_whitespace_counterexample :
    (createApplicationHandler 0 { companyName := some (Json.str "   ") }
      ({} : Store)).2 =
      HandlerResult.created
        { id := 1, companyName := "   ", createTime := 0, updateTime := 0 } ∧
    (createApplicationHandler 0 { companyName := some (Json.str "   ") }
      ({} : Store)).1.apps =
      [{ id := 1, companyName := "   ", createTime := 0, updateTime := 0 }] := by
  refine ⟨by decide, by decide⟩

/-- Claim C7 (amended): the create handler rejects with the companyName
validation error — leaving the store untouched — exactly when companyName
is absent, not a string, or the empty string. No trimming occurs, so a
whitespace-only companyName passes validation. -/
theorem createApplicationHandler_companyName_validation (now : Nat) (body : ReqBody)
    (store : Store) :
    createApplicationHandler now body store =
      (store, HandlerResult.badRequest "companyName is required") ↔
    (body.companyName = none ∨
      ∃ v, body.companyName = some v ∧ (v.isStr = false ∨ v = Json.str "")) := by
  have hb : ((match body.companyName with
      | none => true
      | some v => jsFalsy v || !v.isStr) = true) ↔
      (body.companyName = none ∨
        ∃ v, body.companyName = some v ∧ (v.isStr = false ∨ v = Json.str "")) := by
    cases hc : body.companyName with
    | none => simp
    | some v =>
      constructor
      · intro h
        right
        refine ⟨v, rfl, ?_⟩
        cases v with
        | null => exact Or.inl rfl
        | bool b => exact Or.inl rfl
        | num n => exact Or.inl rfl
        | arr es => exact Or.inl rfl
        | obj fs => exact Or.inl rfl
        | str s =>
          right
          simp only [jsFalsy, Json.isStr, Bool.not_true, Bool.or_false,
            decide_eq_true_eq] at h
          rw [h]
      · rintro (hnone | ⟨v2, hv2, h⟩)
        · exact Option.noConfusion hnone
        · have hveq : v = v2 := Option.some.inj hv2
          subst hveq
          rcases h with h | h
          · cases v with
            | str s => simp [Json.isStr] at h
            | null => rfl
            | bool b => simp [jsFalsy, Json.isStr]
            | num n => simp [jsFalsy, Json.isStr]
            | arr es => simp [jsFalsy, Json.isStr]
            | obj fs => simp [jsFalsy, Json.isStr]
          · rw [h]
            rfl
  unfold createApplicationHandler
  by_cases h1 : (match body.companyName with
      | none => true
      | some v => jsFalsy v || !v.isStr) = true
  · rw [if_pos h1]
    exact ⟨fun _ => hb.mp h1, fun _ => rfl⟩
  · rw [if_neg h1]
    have hr : ¬ (body.companyName = none ∨
        ∃ v, body.companyName = some v ∧ (v.isStr = false ∨ v = Json.str "")) :=
      fun hc => h1 (hb.mpr hc)
    constructor
    · intro heq
      exfalso
      split at heq
      · have h2 := congrArg Prod.snd heq
        simp at h2
      · split at heq
        · have h2 := congrArg Prod.snd heq
          simp at h2
        · split at heq
          · have h2 := congrArg Prod.snd heq
            simp at h2
          · have h2 := congrArg Prod.snd heq
            simp at h2
    · intro hc
      exact absurd hc hr

/-- Witness for claim C7: the empty body is rejected with the store
untouched. -/
theorem createApplicationHandler_companyName_validation_witness :
    createApplicationHandler 0 ({} : ReqBody) ({} : Store) =
      (({} : Store), HandlerResult.badRequest "companyName is required") :=
  (createApplicationHandler_companyName_validation 0 {} {}).mpr (Or.inl rfl)

/-! ## Claim C8 -/

/-- Store with three applications: two with status interview (createTime 1
and 2) and one applied (createTime 3). -/
def storeC8 : Store :=
  { apps := [{ id := 1, companyName := "A", status := "interview", createTime := 1 },
             { id := 2, companyName := "B", status := "interview", createTime := 2 },
             { id := 3, companyName := "C", status := "applied", createTime := 3 }],
    nextAppId := 4 }

/-- Claim C8, counterexample: a filter supplying offset without limit does
not return the applications at all — the generated SQL places OFFSET
without a preceding LIMIT, which SQLite rejects as a syntax error, so the
call throws instead of returning the ordered rows. -/
theorem listApplications_offset_only_counterexample :
    listApplications { offset := some 1 } storeC8 =
      Except.error "near OFFSET: syntax error" ∧
    listApplications { offset := some 1 } storeC8 ≠
      Except.ok (specListApplications { offset := some 1 } storeC8) := by
  refine ⟨by decide, by decide⟩

/-- Claim C8 (amended): for every filter whose offset, when present, comes
with a limit (SQLite only admits OFFSET after LIMIT) and whose limit is
not negative, listing matches the specification: filter on the exact
status (all applications when the status is omitted), order by createTime
descending, then drop offset rows and keep at most limit rows. -/
theorem listApplications_matches_spec (q : ListQuery) (store : Store)
    (hoff : q.offset.isSome = true → q.limit.isSome = true)
    (hlim : (match q.limit with | some l => 0 ≤ l | none => True))
    (hstat : (match q.status with | some s => s ≠ "" | none => True)) :
    listApplications q store = Except.ok (specListApplications q store) := by
  rcases q with ⟨qs, ql, qo⟩
  unfold listApplications specListApplications
  simp only at hoff hlim hstat ⊢
  cases ql with
  | none =>
    cases qo with
    | none =>
      rw [if_neg (by simp)]
      cases qs with
      | none => rfl
      | some s =>
        simp only
        rw [if_pos hstat]
    | some o =>
      have h2 := hoff (by rfl)
      simp at h2
  | some l =>
    rw [if_neg (by simp)]
    have hnl : ¬ l < 0 := Int.not_lt.mpr hlim
    cases qs with
    | none =>
      cases qo with
      | none =>
        simp only
        rw [if_neg hnl]
      | some o =>
        simp only
        rw [if_neg hnl]
    | some s =>
      simp only
      rw [if_pos hstat]
      cases qo with
      | none =>
        simp only
        rw [if_neg hnl]
      | some o =>
        simp only
        rw [if_neg hnl]

/-- Witness for claim C8: the filter of the claim — status interview,
limit 1, offset 1 — returns exactly one row, skipping the newest matching
row. -/
theorem listApplications_matches_spec_witness :
    listApplications { status := some "interview", limit := some 1, offset := some 1 }
        storeC8 =
      Except.ok (specListApplications
        { status := some "interview", limit := some 1, offset := some 1 } storeC8) ∧
    specListApplications
        { status := some "interview", limit := some 1, offset := some 1 } storeC8 =
      [{ id := 1, companyName := "A", status := "interview", createTime := 1 }] := by
  refine ⟨listApplications_matches_spec _ storeC8 (by decide) (by decide) (by decide),
    by decide⟩

/-! ## Claim C9 -/

/-- The embedded-JSON example of the claim. -/
def noisyJson : String :=
  "noise \x7b\"companyName\":\"Acme\",\"skills\":\"Go,Rust\"\x7d trailing"

/-- Claim C9: the extraction parser decodes the substring from the first
opening brace to the last closing brace inclusive, and fails exactly when
either delimiter is absent, the delimiters are inverted, or JSON decoding
of the substring fails; it succeeds on the noisy example, extracting
companyName Acme and skills Go,Rust, and fails on text with no opening
brace. -/
theorem parseGeminiJson_brace_extraction :
    (∀ text, firstBraceIdx text = none → parseGeminiJson text = none) ∧
    (∀ text, lastBraceIdx text = none → parseGeminiJson text = none) ∧
    (∀ text s e, firstBraceIdx text = some s → lastBraceIdx text = some e →
      e ≤ s → parseGeminiJson text = none) ∧
    (∀ text s e, firstBraceIdx text = some s → lastBraceIdx text = some e →
      s < e → parseGeminiJson text = jsonParse (braceSlice text s e)) ∧
    parseGeminiJson noisyJson =
      some (Json.obj [("companyName", Json.str "Acme"), ("skills", Json.str "Go,Rust")]) ∧
    parseGeminiJson "no opening brace" = none := by
  refine ⟨?_, ?_, ?_, ?_, ?_, ?_⟩
  · intro text h
    unfold parseGeminiJson
    rw [h]
  · intro text h
    unfold parseGeminiJson
    rw [h]
    cases firstBraceIdx text <;> rfl
  · intro text s e h1 h2 h3
    unfold parseGeminiJson
    rw [h1, h2]
    simp only
    rw [if_pos h3]
  · intro text s e h1 h2 h3
    unfold parseGeminiJson
    rw [h1, h2]
    simp only
    rw [if_neg (by omega)]
  · rfl
  · rfl

/-! ## Lemmas: createApplication -/

/-- A successful create persists exactly the status text obtained by
binding `input.status ?? "applied"`, which passed the CHECK constraint. -/
theorem createApplication_ok_status (now : Nat) (input : CreateApplicationInput)
    (store st2 : Store) (app : AppRow)
    (hbound : ∀ a ∈ store.apps, a.id < store.nextAppId)
    (h : createApplication now input store = (st2, Except.ok app)) :
    ∃ t, jsToParam (jsNullishD input.status (Json.str "applied")) = some (some t) ∧
      validStatus t = true ∧ app.status = t := by
  simp only [createApplication] at h
  rcases hc1 : jsToParam input.companyName with _ | companyP <;> rw [hc1] at h
  · exact Except.noConfusion (congrArg Prod.snd h)
  rcases hc2 : jsToParam (jsNullishD input.jobTitle Json.null) with _ | titleP <;>
    rw [hc2] at h
  · exact Except.noConfusion (congrArg Prod.snd h)
  rcases hc3 : jsToParam (jsNullishD input.location Json.null) with _ | locP <;>
    rw [hc3] at h
  · exact Except.noConfusion (congrArg Prod.snd h)
  rcases hc4 : jsToParam (jsNullishD input.sourceUrl Json.null) with _ | srcP <;>
    rw [hc4] at h
  · exact Except.noConfusion (congrArg Prod.snd h)
  rcases hc5 : jsToParam (jsNullishD input.status (Json.str "applied")) with _ | statP <;>
    rw [hc5] at h
  · exact Except.noConfusion (congrArg Prod.snd h)
  rcases hc6 : jsToParam (jsNullishD input.applyTime Json.null) with _ | applyP <;>
    rw [hc6] at h
  · exact Except.noConfusion (congrArg Prod.snd h)
  simp only at h
  rcases companyP with _ | companyText
  · simp only at h
    exact Except.noConfusion (congrArg Prod.snd h)
  rcases statP with _ | statusText
  · simp only at h
    rcases titleP <;> exact Except.noConfusion (congrArg Prod.snd h)
  simp only at h
  by_cases hv : validStatus statusText = true
  · rw [if_pos hv] at h
    refine ⟨statusText, rfl, hv, ?_⟩
    rcases hps1 : parseSkillListJS input.softSkills with _ | softNames <;>
      rw [hps1] at h
    · exact Except.noConfusion (congrArg Prod.snd h)
    rcases hps2 : parseSkillListJS input.skills with _ | requiredNames <;>
      rw [hps2] at h
    · exact Except.noConfusion (congrArg Prod.snd h)
    simp only at h
    set row : AppRow :=
      ⟨store.nextAppId, companyText, titleP, locP, srcP, statusText, applyP, now, now⟩
      with hrow
    set st1 : Store := { store with apps := store.apps ++ [row],
                                    nextAppId := store.nextAppId + 1 } with hst1
    rcases hs1 : syncApplicationSkills row.id (some softNames) 1 st1 with ⟨st1b, err1⟩
    rw [hs1] at h
    rcases err1 with _ | e1
    · simp only at h
      rcases hs2 : syncApplicationSkills row.id (some requiredNames) 0 st1b with ⟨st2b, err2⟩
      rw [hs2] at h
      rcases err2 with _ | e2
      · simp only at h
        rcases hfind : getApplicationById row.id st2b with _ | found <;> rw [hfind] at h
        · exact Except.noConfusion (congrArg Prod.snd h)
        simp only at h
        have happs2 : st2b.apps = st1.apps := by
          have e1a := sync_apps row.id 1 (some softNames) st1
          rw [hs1] at e1a
          have e2a := sync_apps row.id 0 (some requiredNames) st1b
          rw [hs2] at e2a
          rw [e2a, e1a]
        have hfind2 : getApplicationById row.id st2b = some row := by
          unfold getApplicationById
          rw [happs2]
          show (store.apps ++ [row]).find? (fun a => a.id = row.id) = some row
          apply find?_append_fresh
          intro a ha
          exact Nat.ne_of_lt (hbound a ha)
        rw [hfind2] at hfind
        have hfr : found = row := (Option.some.inj hfind).symm
        have happ : app = found := by
          have h2 := congrArg Prod.snd h
          simpa using h2.symm
        rw [happ, hfr, hrow]
      · simp only at h
        exact Except.noConfusion (congrArg Prod.snd h)
    · simp only at h
      exact Except.noConfusion (congrArg Prod.snd h)
  · rw [if_neg hv] at h
    exact Except.noConfusion (congrArg Prod.snd h)

/-! ## Claim C3 -/

/-- The status value passed to the create call by the import:
`input.status ?? analysis.status ?? "applied"` (the analysis status is
never nullish, so the final fallback never fires on its own). -/
def importStatusChoice (reqStatus : Option String) (analysisStatus : Option Json) : Json :=
  match reqStatus with
  | some sv => Json.str sv
  | none => jsNullishD analysisStatus (Json.str "applied")

/-- Claim C3: a failure of the import at the fetch, model-call or parse
stage, or an extraction payload whose companyName is missing, null or
empty, makes the import throw with the store completely unchanged; and
whenever the import changes the store, all three stages succeeded, the
companyName check passed, and the whole outcome is that of the single
createApplication call on the original store. -/
theorem importApplicationFromLink_no_partial_write (now : Nat) (url : String)
    (reqStatus : Option String) (fetched : Except String String)
    (generate : String → Except String String) (store st2 : Store)
    (res : Except String AppRow)
    (h : importApplicationFromLink now url reqStatus fetched generate store = (st2, res)) :
    (((∃ e, fetched = Except.error e) ∨
      (∃ pt e, fetched = Except.ok pt ∧ generate pt = Except.error e) ∨
      (∃ pt raw, fetched = Except.ok pt ∧ generate pt = Except.ok raw ∧
        parseGeminiJson raw = none) ∨
      (∃ pt raw payload, fetched = Except.ok pt ∧ generate pt = Except.ok raw ∧
        parseGeminiJson raw = some (Json.obj payload) ∧
        (getField payload "companyName" = none ∨
         getField payload "companyName" = some Json.null ∨
         getField payload "companyName" = some (Json.str "")))) →
      (∃ e, res = Except.error e) ∧ st2 = store) ∧
    (st2 ≠ store →
      ∃ pt raw payload, fetched = Except.ok pt ∧ generate pt = Except.ok raw ∧
        parseGeminiJson raw = some (Json.obj payload) ∧
        jsFalsy (analyzeJobContent url payload).companyName = false ∧
        (st2, res) = createApplication now
          { analyzeJobContent url payload with
            status := some (importStatusChoice reqStatus
              (analyzeJobContent url payload).status) } store) := by
  unfold importApplicationFromLink at h
  rcases fetched with e | pt
  · simp only [Prod.mk.injEq] at h
    exact ⟨fun _ => ⟨⟨e, h.2.symm⟩, h.1.symm⟩, fun hne => absurd h.1.symm hne⟩
  · rcases hg : generate pt with e | raw
    · simp only [hg, Prod.mk.injEq] at h
      exact ⟨fun _ => ⟨⟨e, h.2.symm⟩, h.1.symm⟩, fun hne => absurd h.1.symm hne⟩
    · rcases hp : parseGeminiJson raw with _ | v
      · simp only [hg, hp, Prod.mk.injEq] at h
        exact ⟨fun _ => ⟨⟨_, h.2.symm⟩, h.1.symm⟩, fun hne => absurd h.1.symm hne⟩
      · rcases v with _ | b | n | s | es | payload
        case obj =>
          simp only [hg, hp] at h
          by_cases hf2 : jsFalsy (analyzeJobContent url payload).companyName = true
          · rw [if_pos hf2] at h
            simp only [Prod.mk.injEq] at h
            exact ⟨fun _ => ⟨⟨_, h.2.symm⟩, h.1.symm⟩, fun hne => absurd h.1.symm hne⟩
          · rw [if_neg hf2] at h
            constructor
            · rintro (⟨e, he⟩ | ⟨pt2, e, hpt, he⟩ | ⟨pt2, raw2, hpt, hraw, hnone⟩ |
                ⟨pt2, raw2, payload2, hpt, hraw, hsome, hcn⟩)
              · exact Except.noConfusion he
              · rw [← Except.ok.inj hpt, hg] at he
                exact Except.noConfusion he
              · rw [← Except.ok.inj hpt, hg] at hraw
                rw [← Except.ok.inj hraw, hp] at hnone
                exact Option.noConfusion hnone
              · rw [← Except.ok.inj hpt, hg] at hraw
                rw [← Except.ok.inj hraw, hp] at hsome
                have hpay : payload = payload2 := Json.obj.inj (Option.some.inj hsome)
                rw [← hpay] at hcn
                exfalso
                apply hf2
                show jsFalsy (jsNullishD (getField payload "companyName")
                  (Json.str "")) = true
                rcases hcn with hcn | hcn | hcn <;> rw [hcn] <;> rfl
            · intro _
              exact ⟨pt, raw, payload, rfl, hg, hp, by simpa using hf2, h.symm⟩
        all_goals {
          simp only [hg, hp, Prod.mk.injEq] at h
          exact ⟨fun _ => ⟨⟨_, h.2.symm⟩, h.1.symm⟩, fun hne => absurd h.1.symm hne⟩
        }

/-- Witness for claim C3: a failing fetch leaves the empty store empty. -/
theorem importApplicationFromLink_no_partial_write_witness :
    (∃ e, (importApplicationFromLink 0 "http://u" none (Except.error "boom")
      (fun _ => Except.ok "x") ({} : Store)).2 = Except.error e) ∧
    (importApplicationFromLink 0 "http://u" none (Except.error "boom")
      (fun _ => Except.ok "x") ({} : Store)).1 = ({} : Store) :=
  (importApplicationFromLink_no_partial_write 0 "http://u" none (Except.error "boom")
    (fun _ => Except.ok "x") ({} : Store) _ _ rfl).1 (Or.inl ⟨"boom", rfl⟩)

/-! ## Claim C4 -/

/-- Claim C4: a successful import persists the caller-supplied status when
one was supplied; otherwise the status string parsed from the extraction
payload; otherwise (status absent or null in the payload) "applied". -/
theorem importApplicationFromLink_status_resolution (now : Nat) (url : String)
    (reqStatus : Option String) (pt raw : String) (payload : List (String × Json))
    (fetched : Except String String) (generate : String → Except String String)
    (store st2 : Store) (app : AppRow)
    (hbound : ∀ a ∈ store.apps, a.id < store.nextAppId)
    (hf : fetched = Except.ok pt) (hg : generate pt = Except.ok raw)
    (hp : parseGeminiJson raw = some (Json.obj payload))
    (h : importApplicationFromLink now url reqStatus fetched generate store =
      (st2, Except.ok app)) :
    (∀ sv, reqStatus = some sv → app.status = sv) ∧
    (reqStatus = none → ∀ sv, getField payload "status" = some (Json.str sv) →
      app.status = sv) ∧
    (reqStatus = none →
      (getField payload "status" = none ∨ getField payload "status" = some Json.null) →
      app.status = "applied") := by
  unfold importApplicationFromLink at h
  simp only [hf, hg, hp] at h
  by_cases hfal : jsFalsy (analyzeJobContent url payload).companyName = true
  · rw [if_pos hfal] at h
    simp only [Prod.mk.injEq] at h
    exact absurd h.2 (fun hc => Except.noConfusion hc)
  · rw [if_neg hfal] at h
    obtain ⟨t, hjs, _, hstat⟩ := createApplication_ok_status now _ store st2 app hbound h
    rcases reqStatus with _ | sv
    · have hjs2 : jsToParam (jsNullishD (some (jsNullishD (some (jsNullishD
          (getField payload "status") (Json.str "applied"))) (Json.str "applied")))
          (Json.str "applied")) = some (some t) := hjs
      refine ⟨fun sv hc => Option.noConfusion hc, fun _ sv hfield => ?_, fun _ hor => ?_⟩
      · rw [hfield] at hjs2
        rw [jsNullishD_keep (Json.str sv) _ (fun hc => Json.noConfusion hc)] at hjs2
        rw [jsNullishD_keep (Json.str sv) _ (fun hc => Json.noConfusion hc)] at hjs2
        rw [jsNullishD_keep (Json.str sv) _ (fun hc => Json.noConfusion hc)] at hjs2
        simp only [jsToParam, Option.some.injEq] at hjs2
        rw [hstat, ← hjs2]
      · rw [jsNullishD_default (getField payload "status") (Json.str "applied") hor]
          at hjs2
        rw [jsNullishD_keep (Json.str "applied") _ (fun hc => Json.noConfusion hc)]
          at hjs2
        rw [jsNullishD_keep (Json.str "applied") _ (fun hc => Json.noConfusion hc)]
          at hjs2
        simp only [jsToParam, Option.some.injEq] at hjs2
        rw [hstat, ← hjs2]
    · have hjs2 : jsToParam (jsNullishD (some (Json.str sv)) (Json.str "applied")) =
          some (some t) := hjs
      rw [jsNullishD_keep (Json.str sv) _ (fun hc => Json.noConfusion hc)] at hjs2
      simp only [jsToParam, Option.some.injEq] at hjs2
      refine ⟨fun sv2 hc => ?_, fun hc => Option.noConfusion hc,
        fun hc => Option.noConfusion hc⟩
      have hsv : sv2 = sv := by
        have h2 := Option.some.inj hc
        rw [h2]
      rw [hstat, ← hjs2, hsv]

/-- The raw model response used by the import witness: the payload says
applied, the caller requests interview. -/
def rawC4 : String := "ok \x7b\"companyName\":\"Acme\",\"status\":\"applied\"\x7d done"

/-- The row persisted by the import witness. -/
def rowC4 : AppRow :=
  { id := 1, companyName := "Acme", sourceUrl := some "http://u",
    status := "interview", createTime := 3, updateTime := 3 }

/-- The store after the import witness run. -/
def storeC4 : Store := { apps := [rowC4], nextAppId := 2 }

/-- Witness for claim C4: with requestedStatus interview and a payload
stating applied, the persisted status is interview. -/
theorem importApplicationFromLink_status_resolution_witness :
    (importApplicationFromLink 3 "http://u" (some "interview") (Except.ok "page")
      (fun _ => Except.ok rawC4) ({} : Store)).2 = Except.ok rowC4 ∧
    rowC4.status = "interview" := by
  refine ⟨by decide, ?_⟩
  exact (importApplicationFromLink_status_resolution 3 "http://u" (some "interview")
    "page" rawC4 [("companyName", Json.str "Acme"), ("status", Json.str "applied")]
    (Except.ok "page") (fun _ => Except.ok rawC4) ({} : Store) storeC4 rowC4
    (by decide) rfl rfl rfl (by decide)).1 "interview" rfl

/-! ## Claim C6 -/

/-- Claim C6, counterexample: an update at time 10 that supplies only the
skills field succeeds and reconciles, but the returned row still carries
the old updateTime 5 — no application column was written, so the
update-time trigger never fired and updateTime was not refreshed to 10. -/
theorem updateApplication_updateTime_counterexample :
    (updateApplication 10 1 { skills := some (Json.str "Go") } storeOneApp).2 =
      Except.ok (some appAcme) ∧
    appAcme.updateTime = 5 ∧
    linkedInCat (updateApplication 10 1 { skills := some (Json.str "Go") }
      storeOneApp).1 1 0 "Go" := by
  refine ⟨by decide, by decide, by decide⟩

/-- Claim C6 (amended): an update whose partial input contains only skill
fields succeeds and performs the reconciliation, and returns the
application row completely unchanged — in particular updateTime is not
refreshed, because no application column is written and the trigger only
fires on an UPDATE of the application table. -/
theorem updateApplication_skills_only_succeeds (now id : Nat)
    (input : UpdateApplicationInput) (store : Store) (a : AppRow)
    (hfind : store.apps.find? (fun r => r.id = id) = some a)
    (h1 : input.companyName = none) (h2 : input.jobTitle = none)
    (h3 : input.location = none) (h4 : input.sourceUrl = none)
    (h5 : input.status = none) (h6 : input.applyTime = none)
    (hs1 : input.softSkills = none ∨ ∃ s, input.softSkills = some (Json.str s))
    (hs2 : input.skills = none ∨ ∃ s, input.skills = some (Json.str s)) :
    ∃ st2, updateApplication now id input store = (st2, Except.ok (some a)) := by
  have hmem := List.mem_of_find?_eq_some hfind
  have hpa := List.find?_some hfind
  have happ : store.apps.any (fun r => r.id = id) = true :=
    List.any_eq_true.mpr ⟨a, hmem, hpa⟩
  have hps1 : ∃ ns1, parseSkillArg input.softSkills = some ns1 := by
    rcases hs1 with hs1 | ⟨s1, hs1⟩
    · exact ⟨none, by rw [hs1]; rfl⟩
    · refine ⟨some (parseSkillList (some s1)), ?_⟩
      rw [hs1]
      show (parseSkillListJS (some (Json.str s1))).map some = _
      rw [parseSkillListJS_str]
      rfl
  have hps2 : ∃ ns2, parseSkillArg input.skills = some ns2 := by
    rcases hs2 with hs2 | ⟨s2, hs2⟩
    · exact ⟨none, by rw [hs2]; rfl⟩
    · refine ⟨some (parseSkillList (some s2)), ?_⟩
      rw [hs2]
      show (parseSkillListJS (some (Json.str s2))).map some = _
      rw [parseSkillListJS_str]
      rfl
  obtain ⟨ns1, hps1⟩ := hps1
  obtain ⟨ns2, hps2⟩ := hps2
  have hcols : columnsOf input = [] := by
    rw [columnsOf, h1, h2, h3, h4, h5, h6]; rfl
  obtain ⟨stA, heA, hA⟩ := sync_ok_of_app id 1 ns1 store happ
  have happA : stA.apps.any (fun r => r.id = id) = true := by
    rw [hA]
    exact happ
  obtain ⟨stB, heB, hB⟩ := sync_ok_of_app id 0 ns2 stA happA
  refine ⟨stB, ?_⟩
  unfold updateApplication
  simp only [hps1, hps2, hcols, List.isEmpty_nil, if_true, heA, heB]
  unfold getApplicationById
  rw [hB, hA, hfind]

/-- Witness for claim C6: a concrete skills-only update. -/
theorem updateApplication_skills_only_succeeds_witness :
    ∃ st2, updateApplication 10 1 { softSkills := some (Json.str "Empathy") }
      storeOneApp = (st2, Except.ok (some appAcme)) :=
  updateApplication_skills_only_succeeds 10 1
    { softSkills := some (Json.str "Empathy") } storeOneApp appAcme
    (by decide) rfl rfl rfl rfl rfl rfl (Or.inr ⟨"Empathy", rfl⟩) (Or.inl rfl)

/-! ## Claim C10 -/

/-- A non-empty link-insertion loop fails at its first statement when the
application row does not exist (foreign key on application_id). -/
theorem insertLinks_fk_error (st : Store) (appId : Nat) (sids : List Nat)
    (hnoapp : st.apps.any (fun a => a.id = appId) = false) (hne : sids ≠ []) :
    insertLinks st appId sids = (st, some "FOREIGN KEY constraint failed") := by
  rcases sids with _ | ⟨sid, rest⟩
  · exact absurd rfl hne
  · rw [insertLinks]
    unfold insertLink
    rw [if_pos (by rw [hnoapp]; exact fun hc => Bool.noConfusion hc)]

/-- A sync with a non-empty name list for an application id that has no
row (and, by foreign-key integrity, no links) inserts the missing skill
rows and then fails with the foreign-key error, keeping the new rows. -/
theorem sync_some_fk_error (appId cat : Nat) (names : List String) (st : Store)
    (hnoapp : ∀ a ∈ st.apps, a.id ≠ appId)
    (hlinks : ∀ l ∈ st.links, l.applicationId ≠ appId)
    (hne : names ≠ []) :
    syncApplicationSkills appId (some names) cat st =
      ((getOrCreateSkills names cat st).2, some "FOREIGN KEY constraint failed") := by
  have hfilter : st.links.filter
      (fun l => ¬ (l.applicationId = appId ∧
        (((st.skills.filter (fun sk => sk.isSoftSkill = cat)).map
          (fun sk => sk.id)).contains l.skillId))) = st.links :=
    List.filter_eq_self.mpr (fun l hl => decide_eq_true (fun hc => hlinks l hl hc.1))
  have hst1 : ({ st with links := (st.links.filter
      (fun l => ¬ (l.applicationId = appId ∧
        (((st.skills.filter (fun sk => sk.isSoftSkill = cat)).map
          (fun sk => sk.id)).contains l.skillId)))) } : Store) = st := by
    rw [hfilter]
  unfold syncApplicationSkills
  simp only [hst1]
  rw [if_neg hne]
  apply insertLinks_fk_error
  · rw [gocs_apps]
    exact List.any_eq_false.mpr (fun a ha => by simpa using hnoapp a ha)
  · unfold getOrCreateSkills
    rw [if_neg hne]
    simp only
    obtain ⟨n0, ns0, hnames⟩ := List.exists_cons_of_ne_nil hne
    rw [hnames, List.map_cons]
    exact fun hc => List.noConfusion hc

/-- Claim C10: updating a non-existent application id with a skills string
naming at least one new skill is not atomic on not-found — the new
dictionary rows are inserted and persist, the link insert then violates
the application_id foreign key, and the call throws instead of returning
the not-found result, leaving the orphan skill rows behind (links are
untouched). -/
theorem updateApplication_missing_app_orphans (now id : Nat) (s : String)
    (store : Store)
    (hnoapp : ∀ a ∈ store.apps, a.id ≠ id)
    (hlinks : ∀ l ∈ store.links, l.applicationId ≠ id)
    (hne : parseSkillList (some s) ≠ [])
    (_hnew : ∃ n ∈ parseSkillList (some s), ∀ sk ∈ store.skills, sk.name ≠ n) :
    ∃ st2, updateApplication now id { skills := some (Json.str s) } store =
        (st2, Except.error "FOREIGN KEY constraint failed") ∧
      st2.links = store.links ∧
      ∀ n ∈ parseSkillList (some s), (∀ sk ∈ store.skills, sk.name ≠ n) →
        ∃ sk ∈ st2.skills, sk.name = n ∧ sk.isSoftSkill = 0 := by
  have hps1 : parseSkillArg ({ skills := some (Json.str s) } :
      UpdateApplicationInput).softSkills = some none := rfl
  have hps2 : parseSkillArg ({ skills := some (Json.str s) } :
      UpdateApplicationInput).skills = some (some (parseSkillList (some s))) := by
    show (parseSkillListJS (some (Json.str s))).map some = _
    rw [parseSkillListJS_str]
    rfl
  have hsync1 : syncApplicationSkills id none 1 store = (store, none) := rfl
  have hsync2 := sync_some_fk_error id 0 (parseSkillList (some s)) store hnoapp hlinks hne
  refine ⟨(getOrCreateSkills (parseSkillList (some s)) 0 store).2, ?_, ?_, ?_⟩
  · unfold updateApplication
    simp only [hps1, hps2]
    rw [if_pos (show (columnsOf ({ skills := some (Json.str s) } :
      UpdateApplicationInput)).isEmpty = true from rfl)]
    simp only [hsync1, hsync2]
  · rw [gocs_links]
  · intro n hn hnew2
    obtain ⟨sid, _, sk, hsk, _, hskname⟩ :=
      gocs_ids_resolve (parseSkillList (some s)) 0 store n hn
    rcases gocs_skills_cases (parseSkillList (some s)) 0 store sk hsk with
      hold | ⟨_, hc, _, _⟩
    · exact absurd hskname (hnew2 sk hold)
    · exact ⟨sk, hsk, hskname, hc⟩

/-- Witness for claim C10: updating the missing id 7 with a new skill name
leaves the orphan dictionary row behind and throws. -/
theorem updateApplication_missing_app_orphans_witness :
    ∃ st2, updateApplication 10 7 { skills := some (Json.str "NewSkill") }
        ({} : Store) = (st2, Except.error "FOREIGN KEY constraint failed") ∧
      st2.links = ({} : Store).links ∧
      ∀ n ∈ parseSkillList (some "NewSkill"),
        (∀ sk ∈ ({} : Store).skills, sk.name ≠ n) →
        ∃ sk ∈ st2.skills, sk.name = n ∧ sk.isSoftSkill = 0 :=
  updateApplication_missing_app_orphans 10 7 "NewSkill" ({} : Store)
    (by decide) (by decide) (by decide)
    ⟨"NewSkill", by decide, by decide⟩

end JobTrack
